import Mathlib

/-!
# Game of Life with one worker per subregion (`GOLthreads.cpp`)

A shallow embedding of class `GameOfLife`:

* `int` values are `Int`; `/` and `%` are the truncating `Int.tdiv` and
  `Int.tmod`, undefined (`none`) for a zero divisor and for `INT_MIN / -1`
  (`int` has 32 bits).  A board of side `M` holds
  `M * M` cells, so no index expression of the program (`row + i + M` is at most
  `2 * M`) leaves the range of `int` on a board that fits in memory.
* `std::vector<std::vector<bool>>` is `List (List Bool)`; `operator[]` outside
  the vector is undefined behaviour and yields `none`.
* A member function that reads or writes the object takes and returns the
  object; undefined behaviour is `none`.
* The workers of one generation write `nextBoard` only and read `currentBoard`
  only.  `computeSubregion` is the member function as one thread executes it.
  `runWorkers`, and with it `generation` and `run`, execute the calls of one
  generation one after the other: that is the program with a single worker
  (`N = 1`), and for `N ≥ 2` its executions in which no two workers are at
  the same word of `nextBoard` at the same time.  What is proved of `run` for
  every `N` is about the bounds, the indices, the events and their number;
  what a cell holds after a generation of the program is proved for `N = 1`.
* The threads themselves are a transition system (`Threads.step`): the main
  thread creates, joins and swaps, and a worker assigns to a cell in two
  steps, the load and the store of the word of `std::vector<bool>` that holds
  the bit, at any moment after its creation; `join` waits for its worker.
  With `N ≥ 2` the workers of one band of rows write bits of the same words,
  and a store can undo the assignment of another worker (`raceSchedule`).
* The counter of `countLiveCells` is an `int` that can pass `INT_MAX` on a
  board that fits in memory (from side 46341 on).  The overflow is undefined
  behaviour in C++; its increment wraps here (`wrapInt`), which is what the
  two's-complement addition of the machine computes.
* What `run` and the constructor do besides updating the boards (allocation,
  worker creation and joining, the board assignment, `displayBoard`, the pause)
  is recorded as a list of `Event`s.
-/

namespace GOL

/-- The type of `currentBoard` and `nextBoard`. -/
abbrev Board := List (List Bool)

/-- The 32-bit two's-complement `int` that the machine computes for an `int`
expression of mathematical value `x`: `x` itself between `INT_MIN` and
`INT_MAX`, and `x` modulo `2 ^ 32` brought into that range otherwise. -/
def wrapInt (x : Int) : Int :=
  (x + 2147483648) % 4294967296 - 2147483648

/-- The `int` division `a / b`: undefined for a zero divisor and for
`INT_MIN / -1`. -/
def cdiv (a b : Int) : Option Int :=
  if b = 0 ∨ (a = -2147483648 ∧ b = -1) then none else some (Int.tdiv a b)

/-- The `int` remainder `a % b`: undefined where `a / b` is. -/
def cmod (a b : Int) : Option Int :=
  if b = 0 ∨ (a = -2147483648 ∧ b = -1) then none else some (Int.tmod a b)

/-- The values taken by `x` in `for (int x = lo; x < hi; x++)`. -/
def forRange (lo hi : Int) : List Int :=
  (List.range (hi - lo).toNat).map (fun (k : Nat) => lo + Int.ofNat k)

/-- The read `board[row][col]`. -/
def Board.read (board : Board) (row col : Int) : Option Bool :=
  if 0 ≤ row ∧ 0 ≤ col then
    match board[row.toNat]? with
    | some cells => cells[col.toNat]?
    | none => none
  else none

/-- The assignment `board[row][col] = value`. -/
def Board.write (board : Board) (row col : Int) (value : Bool) : Option Board :=
  if 0 ≤ row ∧ 0 ≤ col then
    match board[row.toNat]? with
    | some cells =>
      if col.toNat < cells.length then
        some (board.set row.toNat (cells.set col.toNat value))
      else none
    | none => none
  else none

/-- The value `std::vector<std::vector<bool>>(M, std::vector<bool>(M, false))`. -/
def Board.dead (M : Int) : Board :=
  List.replicate M.toNat (List.replicate M.toNat false)

/-- The data members of `GameOfLife` that the simulation reads and writes. -/
structure GameOfLife where
  M : Int
  N : Int
  MAX : Int
  currentBoard : Board
  nextBoard : Board
deriving DecidableEq, Repr

/-- The bounds passed to one worker. -/
structure Subregion where
  startRow : Int
  endRow : Int
  startCol : Int
  endCol : Int
deriving DecidableEq, Repr

/-- What the constructor and `run` do besides updating the boards, in program
order. -/
inductive Event where
  | allocateBoards
  | initNCurses
  | spawn (s : Subregion)
  | join (worker : Nat)
  | swap
  | display (board : Board)
  | sleep
deriving DecidableEq, Repr

/-- The value assigned to `nextBoard[i][j]` in `computeSubregion`, from the
value of `currentBoard[i][j]` and the neighbour count. -/
def nextState (alive : Bool) (neighbors : Int) : Bool :=
  if alive then (neighbors == 2 || neighbors == 3) else neighbors == 3

/-- The exceptions the constructor can leave with: the `std::invalid_argument`
it throws itself, and the exception of a `std::vector` constructor
(`std::length_error` or `std::bad_alloc`). -/
inductive Failure where
  | invalidArgument (what : String)
  | allocation
deriving DecidableEq, Repr

namespace GameOfLife

/-- The constructor `GameOfLife(boardSize, sections, generations)`: the events
that happened, and the object or the exception thrown.  A negative size,
converted to `size_t`, makes the `std::vector` constructor throw. -/
def construct (boardSize sections generations : Int) :
    Option (List Event × Except Failure GameOfLife) := do
  let rest ← cmod boardSize sections
  if rest ≠ 0 then
    some ([], .error (.invalidArgument "Board size must be divisible by number of sections"))
  else if boardSize < 0 then
    some ([], .error .allocation)
  else
    some ([.allocateBoards, .initNCurses],
      .ok { M := boardSize, N := sections, MAX := generations,
            currentBoard := Board.dead boardSize, nextBoard := Board.dead boardSize })

/-- The member function `countNeighbors`; the loop bound `i <= 1` is `i < 2`. -/
def countNeighbors (g : GameOfLife) (row col : Int) : Option Int :=
  (forRange (-1) 2).foldlM (fun count i =>
    (forRange (-1) 2).foldlM (fun count j =>
      if i = 0 ∧ j = 0 then some count
      else do
        let newRow ← cmod (row + i + g.M) g.M
        let newCol ← cmod (col + j + g.M) g.M
        let cell ← g.currentBoard.read newRow newCol
        some (if cell then count + 1 else count)) count) 0

/-- The member function `computeSubregion`. -/
def computeSubregion (g : GameOfLife) (startRow endRow startCol endCol : Int) :
    Option GameOfLife :=
  (forRange startRow endRow).foldlM (fun g i =>
    (forRange startCol endCol).foldlM (fun g j => do
      let neighbors ← g.countNeighbors i j
      let alive ← g.currentBoard.read i j
      let next ← g.nextBoard.write i j (nextState alive neighbors)
      some { g with nextBoard := next }) g) g

/-- The bounds of the workers created in one generation of `run`, in the order
of creation. -/
def subregions (g : GameOfLife) (sectionSize : Int) : List Subregion :=
  (forRange 0 g.N).flatMap fun i =>
    (forRange 0 g.N).map fun j =>
      let startRow := i * sectionSize
      let endRow := startRow + sectionSize
      let startCol := j * sectionSize
      let endCol := startCol + sectionSize
      { startRow := startRow, endRow := endRow, startCol := startCol, endCol := endCol }

/-- The work of the workers with bounds `order`, one worker after the other:
each call of `computeSubregion` ends before the next begins. -/
def runWorkers (g : GameOfLife) (order : List Subregion) : Option GameOfLife :=
  order.foldlM (fun g s => g.computeSubregion s.startRow s.endRow s.startCol s.endCol) g

/-- The body of the generation loop of `run`, the workers running one after
the other in the order `order`. -/
def generationIn (g : GameOfLife) (sectionSize : Int) (order : List Subregion) :
    Option (GameOfLife × List Event) := do
  let threads := g.subregions sectionSize
  let g1 ← g.runWorkers order
  let g2 := { g1 with currentBoard := g1.nextBoard }
  some (g2, threads.map Event.spawn ++ (List.range threads.length).map Event.join
    ++ [Event.swap, Event.display g2.currentBoard, Event.sleep])

/-- The body of the generation loop of `run`, the workers running one after
the other in the order of their creation. -/
def generation (g : GameOfLife) (sectionSize : Int) : Option (GameOfLife × List Event) :=
  g.generationIn sectionSize (g.subregions sectionSize)

/-- The member function `run`: the final object and the events in order. -/
def run (g : GameOfLife) : Option (GameOfLife × List Event) := do
  let sectionSize ← cdiv g.M g.N
  (forRange 0 g.MAX).foldlM (fun (st : GameOfLife × List Event) _ => do
    let (g1, events) ← st.1.generation sectionSize
    some (g1, st.2 ++ events)) (g, [])

/-- The member function `countLiveCells`; `count++` is an `int` increment. -/
def countLiveCells (g : GameOfLife) : Int :=
  g.currentBoard.foldl (fun count row =>
    row.foldl (fun count cell => if cell then wrapInt (count + 1) else count) count) 0

end GameOfLife

/-! ## Vocabulary of the statements -/

/-- Both dimensions of `board` are `M`. -/
def Board.Square (board : Board) (M : Int) : Prop :=
  board.length = M.toNat ∧ ∀ cells ∈ board, cells.length = M.toNat

instance (board : Board) (M : Int) : Decidable (board.Square M) := by
  unfold Board.Square; infer_instance

/-- The cell `(row, col)` of `board`, dead where the board has no such cell. -/
def Board.isLive (board : Board) (row col : Int) : Bool :=
  (board.read row col).getD false

/-- The board of side `M` whose cell `(row, col)` is `f row col`. -/
def Board.ofFn (M : Int) (f : Int → Int → Bool) : Board :=
  (forRange 0 M).map fun row => (forRange 0 M).map fun col => f row col

/-- A configuration the constructor accepts, with boards of side `M`. -/
def GameOfLife.Valid (g : GameOfLife) : Prop :=
  1 ≤ g.M ∧ 1 ≤ g.N ∧ Int.tmod g.M g.N = 0 ∧ g.currentBoard.Square g.M ∧ g.nextBoard.Square g.M

instance (g : GameOfLife) : Decidable g.Valid := by
  unfold GameOfLife.Valid; infer_instance

/-- The cell `(row, col)` lies in the half-open bounds `s`. -/
def Subregion.Contains (s : Subregion) (row col : Int) : Prop :=
  s.startRow ≤ row ∧ row < s.endRow ∧ s.startCol ≤ col ∧ col < s.endCol

instance (s : Subregion) (row col : Int) : Decidable (s.Contains row col) := by
  unfold Subregion.Contains; infer_instance

/-- One for a live cell, zero for a dead one. -/
def indicator (b : Bool) : Int := if b then 1 else 0

/-- The neighbour count as a sum over the eight offsets, each offset taken
modulo `M` (so that `-1` wraps to `M - 1` and `M` wraps to `0`). -/
def Board.neighborSum (board : Board) (M row col : Int) : Int :=
  indicator (board.isLive ((row + -1) % M) ((col + -1) % M))
    + indicator (board.isLive ((row + -1) % M) ((col + 0) % M))
    + indicator (board.isLive ((row + -1) % M) ((col + 1) % M))
    + indicator (board.isLive ((row + 0) % M) ((col + -1) % M))
    + indicator (board.isLive ((row + 0) % M) ((col + 1) % M))
    + indicator (board.isLive ((row + 1) % M) ((col + -1) % M))
    + indicator (board.isLive ((row + 1) % M) ((col + 0) % M))
    + indicator (board.isLive ((row + 1) % M) ((col + 1) % M))

/-- The Life rule at `(row, col)` of the current board of `g`: `nextState` of
the cell and of its neighbour sum. -/
def GameOfLife.lifeCell (g : GameOfLife) (row col : Int) : Bool :=
  nextState (g.currentBoard.isLive row col) (g.currentBoard.neighborSum g.M row col)

/-- The board of side `M` holding the Life rule of every cell of the current
board of `g`. -/
def GameOfLife.lifeBoard (g : GameOfLife) : Board :=
  Board.ofFn g.M g.lifeCell

/-- The object `g'` is `g` after the cells in `done` of `nextBoard` were
assigned their Life rule, everything else as in `g`. -/
def GameOfLife.Updated (g : GameOfLife) (done : Int → Int → Prop) (g' : GameOfLife) : Prop :=
  g'.M = g.M ∧ g'.N = g.N ∧ g'.MAX = g.MAX ∧ g'.currentBoard = g.currentBoard ∧
    g'.nextBoard.Square g.M ∧
    ∀ row col, 0 ≤ row → row < g.M → 0 ≤ col → col < g.M →
      (done row col → g'.nextBoard.isLive row col = g.lifeCell row col) ∧
      (¬ done row col → g'.nextBoard.isLive row col = g.nextBoard.isLive row col)

/-- The object after one generation in which every cell was assigned: both
boards hold the Life rule of the old current board. -/
def GameOfLife.advance (g : GameOfLife) : GameOfLife :=
  { g with currentBoard := g.lifeBoard, nextBoard := g.lifeBoard }

/-- The events of one generation of `g`, in program order. -/
def GameOfLife.generationEvents (g : GameOfLife) (sectionSize : Int) : List Event :=
  (g.subregions sectionSize).map Event.spawn
    ++ (List.range (g.subregions sectionSize).length).map Event.join
    ++ [Event.swap, Event.display g.lifeBoard, Event.sleep]

/-- The body of the generation loop of `run` executed `k` times in a row. -/
def GameOfLife.generations (g : GameOfLife) (sectionSize : Int) :
    Nat → Option (GameOfLife × List Event)
  | 0 => some (g, [])
  | k + 1 => do
    let (g1, events1) ← g.generations sectionSize k
    let (g2, events2) ← g1.generation sectionSize
    some (g2, events1 ++ events2)

/-- The event is a call of `displayBoard`. -/
def Event.isDisplay : Event → Bool
  | .display _ => true
  | _ => false

/-- The event is the assignment `currentBoard = nextBoard` or a call of
`displayBoard`. -/
def Event.isSwapOrDisplay : Event → Bool
  | .swap => true
  | .display _ => true
  | _ => false

/-- A 4 × 4 game with four workers: a vertical blinker in the current board,
and a next board that is all live. -/
def sampleGame : GameOfLife :=
  { M := 4, N := 2, MAX := 3,
    currentBoard := [[false, true, false, false], [false, true, false, false],
      [false, true, false, false], [false, false, false, false]],
    nextBoard := [[true, true, true, true], [true, true, true, true],
      [true, true, true, true], [true, true, true, true]] }

/-- The game `sampleGame` with the cell `(3, 3)` of the current board live. -/
def sampleCorner : GameOfLife :=
  { sampleGame with
    currentBoard := [[false, true, false, false], [false, true, false, false],
      [false, true, false, false], [false, false, false, true]] }

/-- The eight offsets `(i, j)` visited by `countNeighbors`, in loop order. -/
def neighborOffsets : List (Int × Int) :=
  [(-1, -1), (-1, 0), (-1, 1), (0, -1), (0, 1), (1, -1), (1, 0), (1, 1)]

/-- The offsets visited by `countNeighbors` whose cell, the coordinates taken
modulo `M`, is live. -/
def Board.liveOffsets (board : Board) (M row col : Int) : List (Int × Int) :=
  neighborOffsets.filter fun d => board.isLive ((row + d.1) % M) ((col + d.2) % M)

/-- Follows the specification's words: `p` is a toroidal neighbour of
`(row, col)`, a cell other than `(row, col)` whose row is `row - 1`, `row` or
`row + 1` modulo `M` and whose column is `col - 1`, `col` or `col + 1` modulo
`M`. -/
def isToroidalNeighbor (M row col : Int) (p : Int × Int) : Bool :=
  decide (p ≠ (row, col))
    && decide (p.1 = (row - 1) % M ∨ p.1 = row ∨ p.1 = (row + 1) % M)
    && decide (p.2 = (col - 1) % M ∨ p.2 = col ∨ p.2 = (col + 1) % M)

/-- Follows the specification's words: the live cells of the `M × M` board
among the toroidal neighbours of `(row, col)`, the cell itself not counted. -/
def Board.liveNeighborCells (board : Board) (M row col : Int) : List (Int × Int) :=
  (List.product (forRange 0 M) (forRange 0 M)).filter fun p =>
    isToroidalNeighbor M row col p && board.isLive p.1 p.2

/-- The 2 × 2 game whose only live cell is `(1, 1)`. -/
def cornerCellGame : GameOfLife :=
  { M := 2, N := 1, MAX := 1, currentBoard := [[false, false], [false, true]],
    nextBoard := [[false, false], [false, false]] }

/-- The 1 × 1 game whose only cell is live. -/
def singleCellGame : GameOfLife :=
  { M := 1, N := 1, MAX := 1, currentBoard := [[true]], nextBoard := [[false]] }

/-- The coordinate `x` is `a` or `a + 1`, modulo `M`. -/
def inPair (M a x : Int) : Bool :=
  x == a || x == (a + 1) % M

/-- The coordinate `x` is `a - 1`, `a` or `a + 1`, modulo `M`. -/
def inTriple (M a x : Int) : Bool :=
  x == (a - 1) % M || x == a || x == (a + 1) % M

/-- The `M × M` board whose live cells are the 2 × 2 block with upper left
corner `(r, c)`, rows `r, r + 1` and columns `c, c + 1` taken modulo `M`. -/
def blockBoard (M r c : Int) : Board :=
  Board.ofFn M fun row col => inPair M r row && inPair M c col

/-- The `M × M` board whose live cells are `(r, c - 1)`, `(r, c)`, `(r, c + 1)`,
columns taken modulo `M`. -/
def blinkerHorizontal (M r c : Int) : Board :=
  Board.ofFn M fun row col => (row == r) && inTriple M c col

/-- The `M × M` board whose live cells are `(r - 1, c)`, `(r, c)`, `(r + 1, c)`,
rows taken modulo `M`. -/
def blinkerVertical (M r c : Int) : Board :=
  Board.ofFn M fun row col => inTriple M r row && (col == c)

/-- The sum of `countNeighbors` on a board whose cell `(x, y)` is
`a x && b y`, from the values of `a` on the three rows and of `b` on the three
columns around the cell. -/
def sumAround (a1 a2 a3 b1 b2 b3 : Bool) : Int :=
  indicator (a1 && b1) + indicator (a1 && b2) + indicator (a1 && b3)
    + indicator (a2 && b1) + indicator (a2 && b3)
    + indicator (a3 && b1) + indicator (a3 && b2) + indicator (a3 && b3)

/-- The index pairs `(newRow, newCol)` at which `countNeighbors(row, col)`
reads `currentBoard`, in loop order. -/
def GameOfLife.neighborPositions (g : GameOfLife) (row col : Int) : List (Int × Int) :=
  neighborOffsets.map fun d =>
    (Int.tmod (row + d.1 + g.M) g.M, Int.tmod (col + d.2 + g.M) g.M)

/-- The board `board` of side `M` moved by `(dr, dc)` on the torus: the cell
`(row, col)` of the result is the cell `(row - dr, col - dc)` of `board`,
coordinates modulo `M`. -/
def Board.shift (board : Board) (M dr dc : Int) : Board :=
  Board.ofFn M fun row col => board.isLive ((row - dr) % M) ((col - dc) % M)

/-- The body of the inner loop of `computeSubregion` for the cell `(i, j)`:
one call of `countNeighbors`, one read of `currentBoard` and one assignment to
`nextBoard[i][j]`. -/
def GameOfLife.updateCell (g : GameOfLife) (i j : Int) : Option GameOfLife := do
  let neighbors ← g.countNeighbors i j
  let alive ← g.currentBoard.read i j
  let next ← g.nextBoard.write i j (nextState alive neighbors)
  some { g with nextBoard := next }

/-- The cells `(i, j)` for which the loops of `computeSubregion` with the bounds
`s` execute their body, in the order of execution. -/
def Subregion.cells (s : Subregion) : List (Int × Int) :=
  (forRange s.startRow s.endRow).flatMap fun i =>
    (forRange s.startCol s.endCol).map fun j => (i, j)

/-! ### The threads of `run`

The control flow of `run` with its workers as a transition system.  The main
thread executes the generation loop: it creates the workers in the order of
the nested loops, joins the elements of `threads` in order, assigns
`currentBoard = nextBoard`, and goes to the next generation.  A worker exists
from its creation on and executes the loop body of `computeSubregion` for one
cell of its bounds at a time, at any moment the scheduler chooses; `join`
returns only when the worker has no cell left.

A row of a board is a `std::vector<bool>`, which packs its elements into
words.  The assignment `nextBoard[i][j] = value` is `*p |= mask` or
`*p &= ~mask` on the word `*p` that holds the bit: a load of the word, a change
of one bit of the copy, and a store of the copy.  The program does not order
these accesses between the workers of one generation (a data race), so another
worker may store to the same word between the load and the store, and the
store then puts back the other bits as they were loaded.  The two accesses are
therefore two steps, `load` and `store`, as the hardware performs them.  The
reads of `currentBoard` for the cell are part of the `load` step: no worker
writes `currentBoard`. -/

/-- The number of bits of a word of `std::vector<bool>`: those of
`unsigned long`, 64 on an LP64 platform.  A row of at most 32 cells is one word
for every word size in use. -/
def wordBits : Nat := 64

/-- The word of the row `cells` that holds the bit `col`. -/
def loadWord (cells : List Bool) (col : Nat) : List Bool :=
  (cells.drop (col / wordBits * wordBits)).take wordBits

/-- The row `cells` after `word` was stored over the word that holds the bit
`col`; the bits of the other words stay. -/
def storeWord (cells : List Bool) (col : Nat) (word : List Bool) : List Bool :=
  cells.enum.map fun p =>
    if p.1 / wordBits = col / wordBits then word.getD (p.1 % wordBits) p.2 else p.2

/-- The loop body of `computeSubregion` for the cell `(i, j)` up to the store
of `nextBoard[i][j] = value`: the call of `countNeighbors`, the read of
`currentBoard[i][j]`, and the load of the word of `nextBoard[i][j]`.  The
result is the copy of the word with the bit of the cell set to the value. -/
def GameOfLife.loadCell (g : GameOfLife) (i j : Int) : Option (List Bool) := do
  let neighbors ← g.countNeighbors i j
  let alive ← g.currentBoard.read i j
  if 0 ≤ i ∧ 0 ≤ j then
    match g.nextBoard[i.toNat]? with
    | some cells =>
      if j.toNat < cells.length then
        some ((loadWord cells j.toNat).set (j.toNat % wordBits) (nextState alive neighbors))
      else none
    | none => none
  else none

/-- The store that ends the assignment `nextBoard[i][j] = value`: `word` is
written over the word of `nextBoard[i][j]`. -/
def GameOfLife.storeCell (g : GameOfLife) (i j : Int) (word : List Bool) :
    Option GameOfLife :=
  if 0 ≤ i ∧ 0 ≤ j then
    match g.nextBoard[i.toNat]? with
    | some cells =>
      if j.toNat < cells.length then
        some { g with nextBoard := g.nextBoard.set i.toNat (storeWord cells j.toNat word) }
      else none
    | none => none
  else none

/-- A worker: the cells it has still to process, the first of them the cell it
is at, and the word it has loaded for that cell and not yet stored. -/
structure Worker where
  cells : List (Int × Int)
  register : Option (List Bool)
deriving DecidableEq, Repr

/-- The state of `run` and its workers: the object, the loop variable
`generation`, the worker of each element of `threads`, and the number of
elements of `threads` already joined. -/
structure Threads where
  game : GameOfLife
  generation : Nat
  tasks : List Worker
  joined : Nat
deriving DecidableEq, Repr

/-- A step of the main thread (`create`, `join`, `swap`) or of a worker
(`load`, `store`), with the generation and the index of the worker in
`threads`. -/
inductive Action where
  | create (generation worker : Nat)
  | load (generation worker : Nat)
  | store (generation worker : Nat)
  | join (generation worker : Nat)
  | swap (generation : Nat)
deriving DecidableEq, Repr

/-- The state when `run` enters the generation loop. -/
def Threads.start (g : GameOfLife) : Threads :=
  { game := g, generation := 0, tasks := [], joined := 0 }

/-- One step of `run` or of a worker, `none` when the step cannot happen in the
state `s`: `create` is the next `threads.emplace_back` of the nested loops;
`load` is the loop body of `computeSubregion` for the next cell of a worker up
to the load of the word of `nextBoard[i][j]`, and `store` is the store of that
word, which ends the loop body; `join` is the next `thread.join()` and waits
for the worker to have no cell left; `swap` is `currentBoard = nextBoard` after
the last `join`. -/
def Threads.step (sectionSize : Int) (s : Threads) : Action → Option Threads
  | .create generation worker =>
    if generation = s.generation ∧ (s.generation : Int) < s.game.MAX
        ∧ worker = s.tasks.length then
      match (s.game.subregions sectionSize)[worker]? with
      | some bounds =>
        some { s with tasks := s.tasks ++ [{ cells := bounds.cells, register := none }] }
      | none => none
    else none
  | .load generation worker =>
    if generation = s.generation then
      match s.tasks[worker]? with
      | some ⟨cell :: rest, none⟩ =>
        match s.game.loadCell cell.1 cell.2 with
        | some word =>
          some { s with tasks := s.tasks.set worker ⟨cell :: rest, some word⟩ }
        | none => none
      | _ => none
    else none
  | .store generation worker =>
    if generation = s.generation then
      match s.tasks[worker]? with
      | some ⟨cell :: rest, some word⟩ =>
        match s.game.storeCell cell.1 cell.2 word with
        | some game => some { s with game := game, tasks := s.tasks.set worker ⟨rest, none⟩ }
        | none => none
      | _ => none
    else none
  | .join generation worker =>
    if generation = s.generation ∧ (s.generation : Int) < s.game.MAX
        ∧ s.tasks.length = (s.game.subregions sectionSize).length
        ∧ worker = s.joined ∧ s.tasks[worker]? = some ⟨[], none⟩ then
      some { s with joined := s.joined + 1 }
    else none
  | .swap generation =>
    if generation = s.generation ∧ (s.generation : Int) < s.game.MAX
        ∧ s.tasks.length = (s.game.subregions sectionSize).length
        ∧ s.joined = s.tasks.length then
      some { game := { s.game with currentBoard := s.game.nextBoard },
             generation := s.generation + 1, tasks := [], joined := 0 }
    else none

/-- The state of `run` and its workers after the steps `schedule`, `none` when
one of them cannot happen. -/
def GameOfLife.runThreads (g : GameOfLife) (schedule : List Action) : Option Threads := do
  let sectionSize ← cdiv g.M g.N
  schedule.foldlM (Threads.step sectionSize) (Threads.start g)

/-- The 2 × 2 game with four workers of one cell each and one generation. -/
def tinyGame : GameOfLife :=
  { M := 2, N := 2, MAX := 1, currentBoard := [[true, true], [false, false]],
    nextBoard := [[false, false], [true, true]] }

/-- A schedule of `tinyGame` in which the first worker loads before the others
are created, and the workers 3 and 1 have both loaded before either stores. -/
def tinySchedule : List Action :=
  [.create 0 0, .load 0 0, .create 0 1, .store 0 0, .create 0 2, .create 0 3, .load 0 3,
    .load 0 1, .store 0 3, .store 0 1, .load 0 2, .store 0 2, .join 0 0, .join 0 1,
    .join 0 2, .join 0 3]

/-- A 4 × 4 game with four workers and one generation: the 2 × 2 block with
upper left corner `(1, 1)`, a still life, over a dead next board. -/
def raceGame : GameOfLife :=
  { M := 4, N := 2, MAX := 1,
    currentBoard := [[false, false, false, false], [false, true, true, false],
      [false, true, true, false], [false, false, false, false]],
    nextBoard := [[false, false, false, false], [false, false, false, false],
      [false, false, false, false], [false, false, false, false]] }

/-- A schedule of one generation of a 4 × 4 game with four workers.  Worker 0
(rows 0 to 1, columns 0 to 1) loads the word of row 1 for its last cell
`(1, 1)`; worker 1 (rows 0 to 1, columns 2 to 3) then loads and stores for
`(1, 2)`, a bit of the same word; worker 0 then stores the word it had loaded.
Every other assignment is a load directly followed by its store. -/
def raceSchedule : List Action :=
  [.create 0 0, .create 0 1, .create 0 2, .create 0 3,
    .load 0 0, .store 0 0, .load 0 0, .store 0 0, .load 0 0, .store 0 0,
    .load 0 1, .store 0 1, .load 0 1, .store 0 1,
    .load 0 0, .load 0 1, .store 0 1, .store 0 0,
    .load 0 1, .store 0 1,
    .load 0 2, .store 0 2, .load 0 2, .store 0 2, .load 0 2, .store 0 2, .load 0 2, .store 0 2,
    .load 0 3, .store 0 3, .load 0 3, .store 0 3, .load 0 3, .store 0 3, .load 0 3, .store 0 3,
    .join 0 0, .join 0 1, .join 0 2, .join 0 3, .swap 0]

/-- A schedule of one generation of a 4 × 4 game with a single worker. -/
def soloSchedule : List Action :=
  [.create 0 0] ++ (List.replicate 16 [Action.load 0 0, Action.store 0 0]).flatten
    ++ [.join 0 0, .swap 0]

/-- The current board after the steps `schedule`, when they are `k` whole
generations of `run`: the loop variable is `k` and no worker of a later
generation exists. -/
def GameOfLife.boardAfter (g : GameOfLife) (schedule : List Action) (k : Nat) :
    Option Board := do
  let s ← g.runThreads schedule
  if s.generation = k ∧ s.tasks = [] then some s.game.currentBoard else none

/-- The game of side 46341 with every cell live, a single worker and no
generation to run.  The board has 46341 × 46341 = 2147488281 cells, and
`INT_MAX` is 2147483647. -/
def fullGame : GameOfLife :=
  { M := 46341, N := 1, MAX := 0,
    currentBoard := List.replicate 46341 (List.replicate 46341 true),
    nextBoard := Board.dead 46341 }

/-- What holds of every state `s` of `run` and its workers reached from the
start of `g` by the steps `done`: the configuration is that of `g` and the
boards keep their side; the workers process cells of their own bounds; a worker
with no cell left holds no loaded word; the workers joined have finished; and
the steps that led here are in `done`. -/
structure Threads.Reached (g : GameOfLife) (done : List Action) (s : Threads) : Prop where
  sameM : s.game.M = g.M
  sameN : s.game.N = g.N
  sameMAX : s.game.MAX = g.MAX
  current : s.game.currentBoard.Square g.M
  next : s.game.nextBoard.Square g.M
  created : s.tasks.length ≤ (g.subregions (g.M / g.N)).length
  phase : s.joined = 0 ∨ s.tasks.length = (g.subregions (g.M / g.N)).length
  joinedLe : s.joined ≤ s.tasks.length
  own : ∀ (k : Nat) (w : Worker), s.tasks[k]? = some w →
    ∃ bounds : Subregion,
      (g.subregions (g.M / g.N))[k]? = some bounds ∧ ∀ p ∈ w.cells, p ∈ bounds.cells
  busy : ∀ (k : Nat) (w : Worker), s.tasks[k]? = some w → w.cells = [] → w.register = none
  idle : ∀ j, j < s.joined → s.tasks[j]? = some ⟨[], none⟩
  didCreate : ∀ j, j < s.tasks.length → Action.create s.generation j ∈ done
  didJoin : ∀ j, j < s.joined → Action.join s.generation j ∈ done
  didSwap : ∀ generation, generation < s.generation → Action.swap generation ∈ done

/-! ## Loops and boards -/

theorem mem_forRange (lo hi x : Int) : x ∈ forRange lo hi ↔ lo ≤ x ∧ x < hi := by
  unfold forRange
  simp only [List.mem_map, List.mem_range]
  constructor
  · rintro ⟨k, hk, rfl⟩
    simp only [Int.ofNat_eq_coe]
    omega
  · intro h
    refine ⟨(x - lo).toNat, by omega, ?_⟩
    simp only [Int.ofNat_eq_coe]
    omega

theorem forRange_length (lo hi : Int) : (forRange lo hi).length = (hi - lo).toNat := by
  simp [forRange]

theorem forRange_offsets : forRange (-1) 2 = [-1, 0, 1] := by decide

theorem forRange_nodup (lo hi : Int) : (forRange lo hi).Nodup := by
  unfold forRange
  refine List.Nodup.map ?_ (List.nodup_range _)
  intro a b h
  simpa using h

theorem Board.read_square {board : Board} {M : Int} (h : board.Square M) {row col : Int}
    (hr0 : 0 ≤ row) (hr : row < M) (hc0 : 0 ≤ col) (hc : col < M) :
    board.read row col = some (board.isLive row col) := by
  have hlen : row.toNat < board.length := by rw [h.1]; omega
  have hcells : col.toNat < (board[row.toNat]).length := by
    rw [h.2 _ (List.getElem_mem hlen)]; omega
  simp [Board.isLive, Board.read, hr0, hc0, List.getElem?_eq_getElem hlen,
    List.getElem?_eq_getElem hcells]

theorem Board.write_square {board : Board} {M : Int} (h : board.Square M) {row col : Int}
    (hr0 : 0 ≤ row) (hr : row < M) (hc0 : 0 ≤ col) (hc : col < M) (value : Bool) :
    ∃ next, board.write row col value = some next ∧ next.Square M ∧
      ∀ r c, 0 ≤ r → 0 ≤ c →
        next.isLive r c = if r = row ∧ c = col then value else board.isLive r c := by
  have hlen : row.toNat < board.length := by rw [h.1]; omega
  have hcl : (board[row.toNat]).length = M.toNat := h.2 _ (List.getElem_mem hlen)
  have hcells : col.toNat < (board[row.toNat]).length := by rw [hcl]; omega
  refine ⟨board.set row.toNat ((board[row.toNat]).set col.toNat value), ?_, ?_, ?_⟩
  · simp [Board.write, hr0, hc0, List.getElem?_eq_getElem hlen, hcells]
  · refine ⟨by rw [List.length_set]; exact h.1, ?_⟩
    intro cells hmem
    rcases List.mem_or_eq_of_mem_set hmem with h1 | h1
    · exact h.2 _ h1
    · rw [h1, List.length_set]; exact hcl
  · intro r c hr0' hc0'
    unfold Board.isLive Board.read
    simp only [hr0', hc0', and_self, if_true, List.getElem?_set]
    by_cases e1 : r = row
    · subst e1
      simp only [if_true, hlen, true_and, List.getElem?_eq_getElem hlen]
      by_cases e2 : c = col
      · subst e2
        simp [List.getElem?_set, hcells]
      · have : col.toNat ≠ c.toNat := by omega
        simp [List.getElem?_set, this, e2]
    · have : row.toNat ≠ r.toNat := by omega
      simp [this, e1]

theorem wrap_pred {M x : Int} (hx0 : 0 ≤ x) (hx : x < M) :
    (x + -1) % M = if x = 0 then M - 1 else x - 1 := by
  split
  · next h =>
    have e : (x + -1) % M = (x + -1 + M) % M := Int.add_emod_self.symm
    rw [e, Int.emod_eq_of_lt (by omega) (by omega)]
    omega
  · next h =>
    rw [Int.emod_eq_of_lt (by omega) (by omega)]
    omega

theorem wrap_zero {M x : Int} (hx0 : 0 ≤ x) (hx : x < M) : (x + 0) % M = x := by
  rw [Int.add_zero, Int.emod_eq_of_lt hx0 hx]

theorem wrap_succ {M x : Int} (hx0 : 0 ≤ x) (hx : x < M) :
    (x + 1) % M = if x + 1 = M then 0 else x + 1 := by
  split
  · next h => rw [h, Int.emod_self]
  · next h => rw [Int.emod_eq_of_lt (by omega) (by omega)]

/-! ## Counting neighbours -/

theorem visit_neighbor {board : Board} {M : Int} (hM : 1 ≤ M) (hsq : board.Square M)
    {row col : Int} (hr0 : 0 ≤ row) (hc0 : 0 ≤ col) (i j : Int) (hi : -1 ≤ i) (hj : -1 ≤ j)
    (count : Int) :
    (do
      let newRow ← cmod (row + i + M) M
      let newCol ← cmod (col + j + M) M
      let cell ← board.read newRow newCol
      some (if cell then count + 1 else count))
      = some (count + indicator (board.isLive ((row + i) % M) ((col + j) % M))) := by
  have hM0 : M ≠ 0 := by omega
  have e1 : Int.tmod (row + i + M) M = (row + i) % M := by
    rw [Int.tmod_eq_emod (by omega) (by omega), Int.add_emod_self]
  have e2 : Int.tmod (col + j + M) M = (col + j) % M := by
    rw [Int.tmod_eq_emod (by omega) (by omega), Int.add_emod_self]
  have b1 := Int.emod_nonneg (row + i) hM0
  have b2 := Int.emod_lt_of_pos (row + i) (show 0 < M by omega)
  have b3 := Int.emod_nonneg (col + j) hM0
  have b4 := Int.emod_lt_of_pos (col + j) (show 0 < M by omega)
  have hM1 : ¬ (M = 0 ∨ (row + i + M = -2147483648 ∧ M = -1)) := by omega
  have hM2 : ¬ (M = 0 ∨ (col + j + M = -2147483648 ∧ M = -1)) := by omega
  simp only [cmod, hM1, hM2, if_false, e1, e2, Option.bind_eq_bind, Option.some_bind,
    Board.read_square hsq b1 b2 b3 b4, indicator]
  split <;> simp

theorem countNeighbors_eq (g : GameOfLife) (hM : 1 ≤ g.M) (hsq : g.currentBoard.Square g.M)
    {row col : Int} (hr0 : 0 ≤ row) (hc0 : 0 ≤ col) :
    g.countNeighbors row col = some (g.currentBoard.neighborSum g.M row col) := by
  unfold GameOfLife.countNeighbors
  rw [forRange_offsets]
  simp only [List.foldlM_cons, List.foldlM_nil, Option.bind_eq_bind, Option.some_bind,
    Option.pure_def]
  have v := fun i j hi hj count =>
    visit_neighbor hM hsq hr0 hc0 i j hi hj count
  simp only [Option.bind_eq_bind] at v
  simp only [v (-1) (-1) (by decide) (by decide), v (-1) 0 (by decide) (by decide),
    v (-1) 1 (by decide) (by decide), v 0 (-1) (by decide) (by decide),
    v 0 1 (by decide) (by decide), v 1 (-1) (by decide) (by decide),
    v 1 0 (by decide) (by decide), v 1 1 (by decide) (by decide),
    Option.some_bind, Board.neighborSum]
  simp

theorem indicator_bounds (b : Bool) : 0 ≤ indicator b ∧ indicator b ≤ 1 := by
  cases b <;> simp [indicator]

/-! ## One worker -/

theorem foldlM_invariant {α σ : Type} (f : σ → α → Option σ) (I : List α → σ → Prop)
    (l : List α)
    (hstep : ∀ pre x s, x ∈ l → I pre s → ∃ s', f s x = some s' ∧ I (pre ++ [x]) s')
    (pre : List α) (s : σ) (h : I pre s) :
    ∃ s', l.foldlM f s = some s' ∧ I (pre ++ l) s' := by
  induction l generalizing pre s with
  | nil => exact ⟨s, rfl, by simpa using h⟩
  | cons x xs ih =>
    obtain ⟨s1, hs1, hI1⟩ := hstep pre x s (List.mem_cons_self _ _) h
    obtain ⟨s2, hs2, hI2⟩ := ih (fun pre y t hy ht => hstep pre y t (List.mem_cons_of_mem _ hy) ht)
      (pre ++ [x]) s1 hI1
    refine ⟨s2, ?_, by simpa using hI2⟩
    simp [List.foldlM_cons, hs1, hs2]

theorem GameOfLife.Updated.congr {g g' : GameOfLife} {P Q : Int → Int → Prop}
    (hPQ : ∀ row col, P row col ↔ Q row col) (h : g.Updated P g') : g.Updated Q g' := by
  obtain ⟨h1, h2, h3, h4, h5, h6⟩ := h
  refine ⟨h1, h2, h3, h4, h5, ?_⟩
  intro row col a b c d
  rw [← hPQ row col]
  exact h6 row col a b c d

theorem GameOfLife.Updated.start (g : GameOfLife) (hsq : g.nextBoard.Square g.M) :
    g.Updated (fun _ _ => False) g :=
  ⟨rfl, rfl, rfl, rfl, hsq, fun _ _ _ _ _ _ => ⟨fun h => h.elim, fun _ => rfl⟩⟩

theorem GameOfLife.Updated.cell {g g1 : GameOfLife} (hM : 1 ≤ g.M) (hcur : g.currentBoard.Square g.M)
    {P : Int → Int → Prop} (h : g.Updated P g1) {i j : Int}
    (hi0 : 0 ≤ i) (hi : i < g.M) (hj0 : 0 ≤ j) (hj : j < g.M) :
    ∃ g2, (do
        let neighbors ← g1.countNeighbors i j
        let alive ← g1.currentBoard.read i j
        let next ← g1.nextBoard.write i j (nextState alive neighbors)
        some { g1 with nextBoard := next }) = some g2 ∧
      g.Updated (fun row col => P row col ∨ (row = i ∧ col = j)) g2 := by
  obtain ⟨h1, h2, h3, h4, h5, h6⟩ := h
  have hc := countNeighbors_eq g1 (by rw [h1]; exact hM) (by rw [h1, h4]; exact hcur) hi0 hj0
  have hrd : g1.currentBoard.read i j = some (g.currentBoard.isLive i j) := by
    rw [h4]; exact Board.read_square hcur hi0 hi hj0 hj
  obtain ⟨next, hw, hsq, hlive⟩ := Board.write_square h5 hi0 hi hj0 hj
    (nextState (g.currentBoard.isLive i j) (g1.currentBoard.neighborSum g1.M i j))
  refine ⟨{ g1 with nextBoard := next }, ?_, h1, h2, h3, h4, hsq, ?_⟩
  · simp only [hc, hrd, Option.bind_eq_bind, Option.some_bind, hw]
  · intro row col a b c d
    simp only
    rw [hlive row col a c]
    by_cases e : row = i ∧ col = j
    · obtain ⟨rfl, rfl⟩ := e
      simp [GameOfLife.lifeCell, h1, h4]
    · simp only [e, if_false, or_false]
      exact h6 row col a b c d

theorem inner_loop {g g1 : GameOfLife} (hM : 1 ≤ g.M) (hcur : g.currentBoard.Square g.M)
    {P : Int → Int → Prop} (h : g.Updated P g1) {i : Int} (hi0 : 0 ≤ i) (hi : i < g.M)
    {startCol endCol : Int} (hs : 0 ≤ startCol) (he : endCol ≤ g.M) :
    ∃ g2, (forRange startCol endCol).foldlM (fun g j => do
        let neighbors ← g.countNeighbors i j
        let alive ← g.currentBoard.read i j
        let next ← g.nextBoard.write i j (nextState alive neighbors)
        some { g with nextBoard := next }) g1 = some g2 ∧
      g.Updated (fun row col => P row col ∨ (row = i ∧ startCol ≤ col ∧ col < endCol)) g2 := by
  obtain ⟨g2, hg2, hI⟩ := foldlM_invariant _
    (fun pre s => g.Updated (fun row col => P row col ∨ (row = i ∧ col ∈ pre)) s)
    (forRange startCol endCol)
    (by
      intro pre j s hj hs'
      rw [mem_forRange] at hj
      obtain ⟨s', e1, e2⟩ := GameOfLife.Updated.cell hM hcur hs' hi0 hi (show 0 ≤ j by omega)
        (show j < g.M by omega)
      refine ⟨s', e1, e2.congr ?_⟩
      intro row col
      simp only [List.mem_append, List.mem_singleton]
      tauto)
    [] g1 (h.congr (by intro row col; simp))
  refine ⟨g2, hg2, hI.congr ?_⟩
  intro row col
  simp only [List.nil_append, mem_forRange]

theorem computeSubregion_updated {g g1 : GameOfLife} (hM : 1 ≤ g.M)
    (hcur : g.currentBoard.Square g.M) {P : Int → Int → Prop} (h : g.Updated P g1)
    (s : Subregion) (hr : 0 ≤ s.startRow) (hr' : s.endRow ≤ g.M)
    (hc : 0 ≤ s.startCol) (hc' : s.endCol ≤ g.M) :
    ∃ g2, g1.computeSubregion s.startRow s.endRow s.startCol s.endCol = some g2 ∧
      g.Updated (fun row col => P row col ∨ s.Contains row col) g2 := by
  unfold GameOfLife.computeSubregion
  obtain ⟨g2, hg2, hI⟩ := foldlM_invariant _
    (fun pre t => g.Updated
      (fun row col => P row col ∨ (row ∈ pre ∧ s.startCol ≤ col ∧ col < s.endCol)) t)
    (forRange s.startRow s.endRow)
    (by
      intro pre i t hi ht
      rw [mem_forRange] at hi
      obtain ⟨t', e1, e2⟩ := inner_loop hM hcur ht (show 0 ≤ i by omega)
        (show i < g.M by omega) hc hc'
      refine ⟨t', e1, e2.congr ?_⟩
      intro row col
      simp only [List.mem_append, List.mem_singleton]
      tauto)
    [] g1 (h.congr (by intro row col; simp))
  refine ⟨g2, hg2, hI.congr ?_⟩
  intro row col
  simp only [List.nil_append, mem_forRange, Subregion.Contains]
  tauto

/-! ## All workers of a generation -/

theorem Board.ofFn_square {M : Int} (f : Int → Int → Bool) : (Board.ofFn M f).Square M := by
  unfold Board.ofFn Board.Square
  refine ⟨by simp [forRange_length], ?_⟩
  intro cells hmem
  rw [List.mem_map] at hmem
  obtain ⟨row, _, rfl⟩ := hmem
  simp [forRange_length]

theorem forRange_getElem? {M : Int} {x : Int} (hx0 : 0 ≤ x) (hx : x < M) :
    (forRange 0 M)[x.toNat]? = some x := by
  unfold forRange
  have h1 : x.toNat < (M - 0).toNat := by omega
  rw [List.getElem?_map, List.getElem?_range h1]
  simp only [Option.map_some', Int.ofNat_eq_coe, Option.some.injEq]
  omega

theorem Board.isLive_ofFn {M : Int} (f : Int → Int → Bool) {row col : Int}
    (hr0 : 0 ≤ row) (hr : row < M) (hc0 : 0 ≤ col) (hc : col < M) :
    (Board.ofFn M f).isLive row col = f row col := by
  unfold Board.isLive Board.read Board.ofFn
  simp [hr0, hc0, List.getElem?_map, forRange_getElem? hr0 hr, forRange_getElem? hc0 hc]

theorem Board.isLive_natCast (board : Board) (i j : Nat) (hi : i < board.length)
    (hj : j < (board[i]).length) : board.isLive (i : Int) (j : Int) = (board[i])[j] := by
  unfold Board.isLive Board.read
  simp [List.getElem?_eq_getElem hi, List.getElem?_eq_getElem hj]

theorem Board.ext_square {b1 b2 : Board} {M : Int} (h1 : b1.Square M) (h2 : b2.Square M)
    (h : ∀ row col, 0 ≤ row → row < M → 0 ≤ col → col < M →
      b1.isLive row col = b2.isLive row col) : b1 = b2 := by
  apply List.ext_getElem (by rw [h1.1, h2.1])
  intro i hi1 hi2
  have l1 : (b1[i]).length = M.toNat := h1.2 _ (List.getElem_mem hi1)
  have l2 : (b2[i]).length = M.toNat := h2.2 _ (List.getElem_mem hi2)
  apply List.ext_getElem (by rw [l1, l2])
  intro j hj1 hj2
  rw [← Board.isLive_natCast b1 i j hi1 hj1, ← Board.isLive_natCast b2 i j hi2 hj2]
  have a1 : i < M.toNat := by rw [← h1.1]; exact hi1
  have a2 : j < M.toNat := by rw [← l1]; exact hj1
  exact h i j (by omega) (by omega) (by omega) (by omega)

theorem runWorkers_updated (g : GameOfLife) (hM : 1 ≤ g.M) (hcur : g.currentBoard.Square g.M)
    (hnext : g.nextBoard.Square g.M) (order : List Subregion)
    (hin : ∀ s ∈ order, 0 ≤ s.startRow ∧ s.endRow ≤ g.M ∧ 0 ≤ s.startCol ∧ s.endCol ≤ g.M) :
    ∃ g2, g.runWorkers order = some g2 ∧
      g.Updated (fun row col => ∃ s ∈ order, s.Contains row col) g2 := by
  unfold GameOfLife.runWorkers
  obtain ⟨g2, hg2, hI⟩ := foldlM_invariant _
    (fun pre t => g.Updated (fun row col => ∃ s ∈ pre, s.Contains row col) t)
    order
    (by
      intro pre s t hs ht
      obtain ⟨h1, h2, h3, h4⟩ := hin s hs
      obtain ⟨t', e1, e2⟩ := computeSubregion_updated hM hcur ht s h1 h2 h3 h4
      refine ⟨t', e1, e2.congr ?_⟩
      intro row col
      simp only [List.mem_append, List.mem_singleton]
      constructor
      · rintro (⟨u, hu, hc⟩ | hc)
        · exact ⟨u, Or.inl hu, hc⟩
        · exact ⟨s, Or.inr rfl, hc⟩
      · rintro ⟨u, hu | rfl, hc⟩
        · exact Or.inl ⟨u, hu, hc⟩
        · exact Or.inr hc)
    [] g ((GameOfLife.Updated.start g hnext).congr (by intro row col; simp))
  exact ⟨g2, hg2, by simpa using hI⟩

theorem generationIn_eq (g : GameOfLife) (hM : 1 ≤ g.M) (hcur : g.currentBoard.Square g.M)
    (hnext : g.nextBoard.Square g.M) (sectionSize : Int) (order : List Subregion)
    (hin : ∀ s ∈ order, 0 ≤ s.startRow ∧ s.endRow ≤ g.M ∧ 0 ≤ s.startCol ∧ s.endCol ≤ g.M)
    (hcover : ∀ row col, 0 ≤ row → row < g.M → 0 ≤ col → col < g.M →
      ∃ s ∈ order, s.Contains row col) :
    g.generationIn sectionSize order =
      some ({ g with currentBoard := g.lifeBoard, nextBoard := g.lifeBoard },
        (g.subregions sectionSize).map Event.spawn
          ++ (List.range (g.subregions sectionSize).length).map Event.join
          ++ [Event.swap, Event.display g.lifeBoard, Event.sleep]) := by
  obtain ⟨g2, hg2, h1, h2, h3, h4, h5, h6⟩ := runWorkers_updated g hM hcur hnext order hin
  have hb : g2.nextBoard = g.lifeBoard := by
    apply Board.ext_square h5 (Board.ofFn_square _)
    intro row col a b c d
    rw [(h6 row col a b c d).1 (hcover row col a b c d)]
    exact (Board.isLive_ofFn _ a b c d).symm
  unfold GameOfLife.generationIn
  simp only [hg2, Option.bind_eq_bind, Option.some_bind, hb]
  cases g2
  simp only at h1 h2 h3
  simp [h1, h2, h3]

/-! ## The partition -/

theorem countP_eq_one_of_unique {α : Type} [DecidableEq α] {l : List α} (hnd : l.Nodup)
    {a : α} (ha : a ∈ l) (p : α → Bool) (hp : ∀ x ∈ l, p x = true ↔ x = a) :
    l.countP p = 1 := by
  have h1 : l.countP p = l.countP (fun x => x == a) := by
    apply List.countP_congr
    intro x hx
    simp [hp x hx]
  rw [h1]
  exact List.count_eq_one_of_mem hnd ha

theorem sum_map_eq_of_unique {l : List Int} (hnd : l.Nodup) {a : Int} (ha : a ∈ l)
    (f : Int → Nat) (hf : ∀ x, x ≠ a → x ∈ l → f x = 0) : (l.map f).sum = f a := by
  rw [List.sum_map_eq_nsmul_single a f hf, List.count_eq_one_of_mem hnd ha]
  simp

theorem sectionSize_spec {M N : Int} (hM : 1 ≤ M) (hN : 1 ≤ N) (hdiv : Int.tmod M N = 0) :
    cdiv M N = some (M / N) ∧ 1 ≤ M / N ∧ N * (M / N) = M := by
  have hmod : M % N = 0 := by
    rw [← Int.tmod_eq_emod (by omega) (by omega)]; exact hdiv
  have hmul : N * (M / N) = M := Int.mul_ediv_cancel' (Int.dvd_of_emod_eq_zero hmod)
  refine ⟨?_, ?_, hmul⟩
  · have : ¬ (N = 0 ∨ (M = -2147483648 ∧ N = -1)) := by omega
    simp [cdiv, this, Int.tdiv_eq_ediv (show (0 : Int) ≤ M by omega) (show (0 : Int) ≤ N by omega)]
  · by_contra hlt
    have h0 : M / N ≤ 0 := by omega
    have : N * (M / N) ≤ 0 := Int.mul_nonpos_of_nonneg_of_nonpos (by omega) h0
    omega

theorem band_iff {s : Int} (hs : 1 ≤ s) (i x : Int) :
    (i * s ≤ x ∧ x < i * s + s) ↔ i = x / s := by
  have hpos : 0 < s := by omega
  constructor
  · rintro ⟨h1, h2⟩
    have a1 : i ≤ x / s := (Int.le_ediv_iff_mul_le hpos).2 h1
    have a2 : x / s < i + 1 := (Int.ediv_lt_iff_lt_mul hpos).2 (by rw [Int.add_mul]; omega)
    omega
  · rintro rfl
    have a1 : x / s * s ≤ x := (Int.le_ediv_iff_mul_le hpos).1 (le_refl _)
    have a2 : x < (x / s + 1) * s := (Int.ediv_lt_iff_lt_mul hpos).1 (by omega)
    rw [Int.add_mul] at a2
    constructor <;> omega

theorem band_index_mem {M N : Int} {s : Int} (hs : 1 ≤ s) (hmul : N * s = M)
    {x : Int} (hx0 : 0 ≤ x) (hx : x < M) : x / s ∈ forRange 0 N := by
  rw [mem_forRange]
  have hpos : 0 < s := by omega
  constructor
  · exact Int.ediv_nonneg hx0 (by omega)
  · exact (Int.ediv_lt_iff_lt_mul hpos).2 (by rw [hmul]; exact hx)

theorem mem_subregions (g : GameOfLife) (sectionSize : Int) (s : Subregion) :
    s ∈ g.subregions sectionSize ↔
      ∃ i ∈ forRange 0 g.N, ∃ j ∈ forRange 0 g.N,
        s = { startRow := i * sectionSize, endRow := i * sectionSize + sectionSize,
              startCol := j * sectionSize, endCol := j * sectionSize + sectionSize } := by
  unfold GameOfLife.subregions
  simp only [List.mem_flatMap, List.mem_map]
  constructor
  · rintro ⟨i, hi, j, hj, rfl⟩
    exact ⟨i, hi, j, hj, rfl⟩
  · rintro ⟨i, hi, j, hj, rfl⟩
    exact ⟨i, hi, j, hj, rfl⟩

theorem subregions_length (g : GameOfLife) (sectionSize : Int) :
    (g.subregions sectionSize).length = g.N.toNat * g.N.toNat := by
  unfold GameOfLife.subregions
  simp [List.length_flatMap, Function.comp_def, forRange_length]

theorem subregions_countP (g : GameOfLife) {s : Int} (hs : 1 ≤ s) (hmul : g.N * s = g.M)
    {row col : Int} (hr0 : 0 ≤ row) (hr : row < g.M) (hc0 : 0 ≤ col) (hc : col < g.M) :
    (g.subregions s).countP (fun t => decide (t.Contains row col)) = 1 := by
  unfold GameOfLife.subregions
  rw [List.countP_flatMap]
  have hi := band_index_mem hs hmul hr0 hr
  have hj := band_index_mem hs hmul hc0 hc
  rw [sum_map_eq_of_unique (forRange_nodup 0 g.N) hi]
  · simp only [Function.comp, List.countP_map]
    apply countP_eq_one_of_unique (forRange_nodup 0 g.N) hj
    intro j _
    simp only [Function.comp, Subregion.Contains, decide_eq_true_eq]
    rw [← band_iff hs]
    have := (band_iff hs (row / s) row).2 rfl
    tauto
  · intro i hne _
    simp only [Function.comp, List.countP_map]
    rw [List.countP_eq_zero]
    intro j _
    simp only [Function.comp, Subregion.Contains, decide_eq_true_eq]
    intro h
    exact hne ((band_iff hs i row).1 ⟨h.1, h.2.1⟩)

theorem subregions_inside (g : GameOfLife) {s : Int} (hs : 1 ≤ s) (hmul : g.N * s = g.M)
    {t : Subregion} (ht : t ∈ g.subregions s) :
    t.endRow - t.startRow = s ∧ t.endCol - t.startCol = s ∧
      0 ≤ t.startRow ∧ t.endRow ≤ g.M ∧ 0 ≤ t.startCol ∧ t.endCol ≤ g.M := by
  rw [mem_subregions] at ht
  obtain ⟨i, hi, j, hj, rfl⟩ := ht
  rw [mem_forRange] at hi hj
  have hi1 : 0 ≤ i * s := Int.mul_nonneg hi.1 (by omega)
  have hj1 : 0 ≤ j * s := Int.mul_nonneg hj.1 (by omega)
  have hi2 : (i + 1) * s ≤ g.N * s := Int.mul_le_mul_of_nonneg_right (by omega) (by omega)
  have hj2 : (j + 1) * s ≤ g.N * s := Int.mul_le_mul_of_nonneg_right (by omega) (by omega)
  rw [Int.add_mul] at hi2 hj2
  simp only
  refine ⟨by omega, by omega, hi1, by omega, hj1, by omega⟩

/-! ## The generation loop -/

theorem generation_eq (g : GameOfLife) (hv : g.Valid) :
    cdiv g.M g.N = some (g.M / g.N) ∧
      g.generation (g.M / g.N) = some (g.advance, g.generationEvents (g.M / g.N)) := by
  obtain ⟨hM, hN, hdiv, hcur, hnext⟩ := hv
  obtain ⟨h1, h2, h3⟩ := sectionSize_spec hM hN hdiv
  refine ⟨h1, ?_⟩
  unfold GameOfLife.generation
  rw [generationIn_eq g hM hcur hnext]
  · rfl
  · intro s hs
    obtain ⟨_, _, a, b, c, d⟩ := subregions_inside g h2 h3 hs
    exact ⟨a, b, c, d⟩
  · intro row col a b c d
    have hcount := subregions_countP g h2 h3 a b c d
    have hpos : 0 < (g.subregions (g.M / g.N)).countP (fun t => decide (t.Contains row col)) := by
      omega
    rw [List.countP_pos_iff] at hpos
    obtain ⟨s, hs, hc⟩ := hpos
    exact ⟨s, hs, by simpa using hc⟩

theorem advance_valid (g : GameOfLife) (hv : g.Valid) : g.advance.Valid := by
  obtain ⟨hM, hN, hdiv, _, _⟩ := hv
  exact ⟨hM, hN, hdiv, Board.ofFn_square _, Board.ofFn_square _⟩

theorem iterate_advance_valid (g : GameOfLife) (hv : g.Valid) (k : Nat) :
    (GameOfLife.advance^[k] g).Valid ∧ (GameOfLife.advance^[k] g).M = g.M ∧
      (GameOfLife.advance^[k] g).N = g.N ∧ (GameOfLife.advance^[k] g).MAX = g.MAX := by
  induction k with
  | zero => exact ⟨hv, rfl, rfl, rfl⟩
  | succ k ih =>
    rw [Function.iterate_succ_apply']
    exact ⟨advance_valid _ ih.1, ih.2.1, ih.2.2.1, ih.2.2.2⟩

theorem generations_eq (g : GameOfLife) (hv : g.Valid) (k : Nat) :
    g.generations (g.M / g.N) k = some (GameOfLife.advance^[k] g,
      (List.range k).flatMap fun i =>
        (GameOfLife.advance^[i] g).generationEvents (g.M / g.N)) := by
  induction k with
  | zero => rfl
  | succ k ih =>
    obtain ⟨hvk, hMk, hNk, _⟩ := iterate_advance_valid g hv k
    have hg := (generation_eq _ hvk).2
    rw [hMk, hNk] at hg
    simp only [GameOfLife.generations, ih, Option.bind_eq_bind, Option.some_bind, hg]
    rw [Function.iterate_succ_apply', List.range_succ, List.flatMap_append]
    simp

theorem loop_eq_generations (g : GameOfLife) (sectionSize : Int) (l : List Int) :
    l.foldlM (fun (st : GameOfLife × List Event) _ => do
      let (g1, events) ← st.1.generation sectionSize
      some (g1, st.2 ++ events)) (g, []) = g.generations sectionSize l.length := by
  induction l using List.reverseRecOn with
  | nil => rfl
  | append_singleton l x ih =>
    rw [List.foldlM_append, ih, List.length_append]
    simp only [List.length_singleton, GameOfLife.generations]
    cases g.generations sectionSize l.length with
    | none => rfl
    | some st =>
      simp only [Option.bind_eq_bind, Option.some_bind, List.foldlM_cons, List.foldlM_nil]
      cases st.1.generation sectionSize with
      | none => rfl
      | some r => rfl

theorem run_eq_generations (g : GameOfLife) {sectionSize : Int}
    (hs : cdiv g.M g.N = some sectionSize) :
    g.run = g.generations sectionSize g.MAX.toNat := by
  unfold GameOfLife.run
  rw [hs]
  have h := loop_eq_generations g sectionSize (forRange 0 g.MAX)
  rw [forRange_length, Int.sub_zero] at h
  exact h

theorem run_eq (g : GameOfLife) (hv : g.Valid) :
    g.run = some (GameOfLife.advance^[g.MAX.toNat] g,
      (List.range g.MAX.toNat).flatMap fun i =>
        (GameOfLife.advance^[i] g).generationEvents (g.M / g.N)) := by
  rw [run_eq_generations g (generation_eq g hv).1]
  exact generations_eq g hv _

theorem nextState_iff (alive : Bool) (neighbors : Int) :
    nextState alive neighbors = true ↔
      (alive = true ∧ (neighbors = 2 ∨ neighbors = 3)) ∨ (alive = false ∧ neighbors = 3) := by
  cases alive <;> simp [nextState]

theorem neighborSum_bounds (board : Board) (M row col : Int) :
    0 ≤ board.neighborSum M row col ∧ board.neighborSum M row col ≤ 8 := by
  unfold Board.neighborSum
  have h := indicator_bounds
  have h1 := h (board.isLive ((row + -1) % M) ((col + -1) % M))
  have h2 := h (board.isLive ((row + -1) % M) ((col + 0) % M))
  have h3 := h (board.isLive ((row + -1) % M) ((col + 1) % M))
  have h4 := h (board.isLive ((row + 0) % M) ((col + -1) % M))
  have h5 := h (board.isLive ((row + 0) % M) ((col + 1) % M))
  have h6 := h (board.isLive ((row + 1) % M) ((col + -1) % M))
  have h7 := h (board.isLive ((row + 1) % M) ((col + 0) % M))
  have h8 := h (board.isLive ((row + 1) % M) ((col + 1) % M))
  constructor <;> omega

theorem filter_flatMap_eq {α β : Type} (p : β → Bool) (f : α → List β) (l : List α) :
    (l.flatMap f).filter p = l.flatMap fun x => (f x).filter p := by
  induction l with
  | nil => rfl
  | cons x xs ih => simp [List.flatMap_cons, List.filter_append, ih]

theorem generationEvents_filter (g : GameOfLife) (sectionSize : Int) :
    (g.generationEvents sectionSize).filter Event.isSwapOrDisplay
      = [Event.swap, Event.display g.lifeBoard] := by
  unfold GameOfLife.generationEvents
  rw [List.filter_append, List.filter_append]
  have h1 : ((g.subregions sectionSize).map Event.spawn).filter Event.isSwapOrDisplay = [] := by
    rw [List.filter_eq_nil_iff]
    intro e he
    rw [List.mem_map] at he
    obtain ⟨s, _, rfl⟩ := he
    simp [Event.isSwapOrDisplay]
  have h2 : ((List.range (g.subregions sectionSize).length).map Event.join).filter
      Event.isSwapOrDisplay = [] := by
    rw [List.filter_eq_nil_iff]
    intro e he
    rw [List.mem_map] at he
    obtain ⟨s, _, rfl⟩ := he
    simp [Event.isSwapOrDisplay]
  rw [h1, h2]
  simp [Event.isSwapOrDisplay]

theorem generationEvents_countP (g : GameOfLife) (sectionSize : Int) :
    (g.generationEvents sectionSize).countP Event.isDisplay = 1 := by
  unfold GameOfLife.generationEvents
  rw [List.countP_append, List.countP_append]
  have h1 : ((g.subregions sectionSize).map Event.spawn).countP Event.isDisplay = 0 := by
    rw [List.countP_eq_zero]
    intro e he
    rw [List.mem_map] at he
    obtain ⟨s, _, rfl⟩ := he
    simp [Event.isDisplay]
  have h2 : ((List.range (g.subregions sectionSize).length).map Event.join).countP
      Event.isDisplay = 0 := by
    rw [List.countP_eq_zero]
    intro e he
    rw [List.mem_map] at he
    obtain ⟨s, _, rfl⟩ := he
    simp [Event.isDisplay]
  rw [h1, h2]
  simp [Event.isDisplay, List.countP_cons]

theorem generationEvents_displays (g : GameOfLife) (sectionSize : Int) :
    (g.generationEvents sectionSize).filter Event.isDisplay = [Event.display g.lifeBoard] := by
  unfold GameOfLife.generationEvents
  rw [List.filter_append, List.filter_append]
  have h1 : ((g.subregions sectionSize).map Event.spawn).filter Event.isDisplay = [] := by
    rw [List.filter_eq_nil_iff]
    intro e he
    rw [List.mem_map] at he
    obtain ⟨s, _, rfl⟩ := he
    simp [Event.isDisplay]
  have h2 : ((List.range (g.subregions sectionSize).length).map Event.join).filter
      Event.isDisplay = [] := by
    rw [List.filter_eq_nil_iff]
    intro e he
    rw [List.mem_map] at he
    obtain ⟨s, _, rfl⟩ := he
    simp [Event.isDisplay]
  rw [h1, h2]
  simp [Event.isDisplay]

theorem flatMap_singleton_eq_map {α β : Type} (f : α → β) (l : List α) :
    (l.flatMap fun x => [f x]) = l.map f := by
  induction l with
  | nil => rfl
  | cons x xs ih => simp [List.flatMap_cons, ih]

theorem run_displays (g : GameOfLife) (hv : g.Valid) :
    ∃ events, g.run = some (GameOfLife.advance^[g.MAX.toNat] g, events) ∧
      events.filter Event.isDisplay = (List.range g.MAX.toNat).map fun i =>
        Event.display (GameOfLife.advance^[i + 1] g).currentBoard := by
  refine ⟨_, run_eq g hv, ?_⟩
  rw [filter_flatMap_eq]
  simp only [generationEvents_displays]
  rw [flatMap_singleton_eq_map]
  apply List.map_congr_left
  intro i _
  rw [Function.iterate_succ_apply']
  rfl

/-! ## Neighbour counts as cell counts -/

theorem filter_length_eq_sum {α : Type} (p : α → Bool) (l : List α) :
    ((l.filter p).length : Int) = (l.map fun x => indicator (p x)).sum := by
  induction l with
  | nil => rfl
  | cons x xs ih =>
    cases h : p x
    · simp [List.filter_cons, h, indicator, ih]
    · simp [List.filter_cons, h, indicator, ih]
      omega

theorem neighborSum_eq_liveOffsets (board : Board) (M row col : Int) :
    board.neighborSum M row col = ((board.liveOffsets M row col).length : Int) := by
  unfold Board.liveOffsets
  rw [filter_length_eq_sum]
  simp only [neighborOffsets, List.map_cons, List.map_nil, List.sum_cons, List.sum_nil,
    Board.neighborSum]
  omega

theorem wrapped_offsets {M : Int} (hM : 3 ≤ M) {x : Int} (hx0 : 0 ≤ x) (hx : x < M) :
    ∃ xm xp, (x + -1) % M = xm ∧ (x + 1) % M = xp ∧ (x + 0) % M = x ∧
      0 ≤ xm ∧ xm < M ∧ 0 ≤ xp ∧ xp < M ∧ xm ≠ x ∧ xp ≠ x ∧ xm ≠ xp := by
  refine ⟨_, _, rfl, rfl, wrap_zero hx0 hx, ?_⟩
  rw [wrap_pred hx0 hx, wrap_succ hx0 hx]
  split <;> split <;> omega

theorem neighbor_cases {M row col rm rp cm cp : Int}
    (a1 : 0 ≤ rm) (a2 : rm < M) (a3 : 0 ≤ rp) (a4 : rp < M)
    (a5 : rm ≠ row) (a6 : rp ≠ row) (a7 : rm ≠ rp)
    (b1 : 0 ≤ cm) (b2 : cm < M) (b3 : 0 ≤ cp) (b4 : cp < M)
    (b5 : cm ≠ col) (b6 : cp ≠ col) (b7 : cm ≠ cp)
    (hr0 : 0 ≤ row) (hr : row < M) (hc0 : 0 ≤ col) (hc : col < M) (x y : Int) :
    (((0 ≤ x ∧ x < M) ∧ 0 ≤ y ∧ y < M) ∧
      (¬ (x = row ∧ y = col) ∧ (x = rm ∨ x = row ∨ x = rp)) ∧ (y = cm ∨ y = col ∨ y = cp)) ↔
    (x = rm ∧ y = cm ∨ x = rm ∧ y = col ∨ x = rm ∧ y = cp ∨ x = row ∧ y = cm ∨
      x = row ∧ y = cp ∨ x = rp ∧ y = cm ∨ x = rp ∧ y = col ∨ x = rp ∧ y = cp) := by
  constructor
  · rintro ⟨-, ⟨hne, hx⟩, hy⟩
    rcases hx with hx | hx | hx <;> rcases hy with hy | hy | hy <;>
      first
      | exact Or.inl (And.intro hx hy)
      | exact Or.inr (Or.inl (And.intro hx hy))
      | exact Or.inr (Or.inr (Or.inl (And.intro hx hy)))
      | exact Or.inr (Or.inr (Or.inr (Or.inl (And.intro hx hy))))
      | exact Or.inr (Or.inr (Or.inr (Or.inr (Or.inl (And.intro hx hy)))))
      | exact Or.inr (Or.inr (Or.inr (Or.inr (Or.inr (Or.inl (And.intro hx hy))))))
      | exact Or.inr (Or.inr (Or.inr (Or.inr (Or.inr (Or.inr (Or.inl (And.intro hx hy)))))))
      | exact Or.inr (Or.inr (Or.inr (Or.inr (Or.inr (Or.inr (Or.inr (And.intro hx hy)))))))
      | exact absurd (And.intro hx hy) hne
  · intro h
    rcases h with ⟨hx, hy⟩ | ⟨hx, hy⟩ | ⟨hx, hy⟩ | ⟨hx, hy⟩ | ⟨hx, hy⟩ |
      ⟨hx, hy⟩ | ⟨hx, hy⟩ | ⟨hx, hy⟩ <;>
      refine ⟨⟨⟨by omega, by omega⟩, by omega, by omega⟩,
        ⟨fun h => by omega, ?_⟩, ?_⟩ <;>
      first
      | exact Or.inl hx
      | exact Or.inr (Or.inl hx)
      | exact Or.inr (Or.inr hx)
      | exact Or.inl hy
      | exact Or.inr (Or.inl hy)
      | exact Or.inr (Or.inr hy)

theorem offsets_nodup {row col rm rp cm cp : Int}
    (a5 : rm ≠ row) (a6 : rp ≠ row) (a7 : rm ≠ rp)
    (b5 : cm ≠ col) (b6 : cp ≠ col) (b7 : cm ≠ cp) :
    ([(rm, cm), (rm, col), (rm, cp), (row, cm), (row, cp), (rp, cm), (rp, col),
      (rp, cp)] : List (Int × Int)).Nodup := by
  simp only [List.nodup_cons, List.mem_cons, List.mem_singleton, Prod.mk.injEq,
    List.not_mem_nil, List.nodup_nil, not_or, not_and, not_false_eq_true, and_true]
  refine ⟨⟨?_, ?_, ?_, ?_, ?_, ?_, ?_⟩, ⟨?_, ?_, ?_, ?_, ?_, ?_⟩, ⟨?_, ?_, ?_, ?_, ?_⟩,
    ⟨?_, ?_, ?_, ?_⟩, ⟨?_, ?_, ?_⟩, ⟨?_, ?_⟩, ?_⟩ <;> intro h <;> omega

theorem liveNeighborCells_length (board : Board) {M : Int} (hM : 3 ≤ M) {row col : Int}
    (hr0 : 0 ≤ row) (hr : row < M) (hc0 : 0 ≤ col) (hc : col < M) :
    (board.liveNeighborCells M row col).length = (board.liveOffsets M row col).length := by
  obtain ⟨rm, rp, e1, e2, e3, a1, a2, a3, a4, a5, a6, a7⟩ := wrapped_offsets hM hr0 hr
  obtain ⟨cm, cp, f1, f2, f3, b1, b2, b3, b4, b5, b6, b7⟩ := wrapped_offsets hM hc0 hc
  have hW : (board.liveOffsets M row col).length =
      (([(rm, cm), (rm, col), (rm, cp), (row, cm), (row, cp), (rp, cm), (rp, col),
        (rp, cp)] : List (Int × Int)).filter fun p => board.isLive p.1 p.2).length := by
    have hmap : ([(rm, cm), (rm, col), (rm, cp), (row, cm), (row, cp), (rp, cm), (rp, col),
        (rp, cp)] : List (Int × Int))
        = neighborOffsets.map fun d => ((row + d.1) % M, (col + d.2) % M) := by
      simp only [neighborOffsets, List.map_cons, List.map_nil, e1, e2, e3, f1, f2, f3]
    rw [hmap, List.filter_map, List.length_map]
    rfl
  rw [hW]
  have hsplit : board.liveNeighborCells M row col =
      ((List.product (forRange 0 M) (forRange 0 M)).filter
        (isToroidalNeighbor M row col)).filter fun p => board.isLive p.1 p.2 := by
    unfold Board.liveNeighborCells
    rw [List.filter_filter]
    congr 1
    funext p
    exact Bool.and_comm _ _
  rw [hsplit]
  apply List.Perm.length_eq
  apply List.Perm.filter
  refine (List.perm_ext_iff_of_nodup
    (List.Nodup.filter _ (List.Nodup.product (forRange_nodup 0 M) (forRange_nodup 0 M)))
    ?_).2 ?_
  rotate_left
  · rintro ⟨x, y⟩
    change (x, y) ∈ List.filter (isToroidalNeighbor M row col)
      (forRange 0 M ×ˢ forRange 0 M) ↔ _
    simp only [List.mem_filter, List.mem_product, mem_forRange, isToroidalNeighbor,
      Int.sub_eq_add_neg, e1, e2, f1, f2, Bool.and_eq_true, decide_eq_true_eq, ne_eq,
      Prod.mk.injEq, List.mem_cons, List.mem_singleton, List.not_mem_nil, or_false]
    exact neighbor_cases a1 a2 a3 a4 a5 a6 a7 b1 b2 b3 b4 b5 b6 b7 hr0 hr hc0 hc x y
  · exact offsets_nodup a5 a6 a7 b5 b6 b7

/-! ## Patterns -/

theorem neighborSum_ofFn {M : Int} (hM : 1 ≤ M) (a b : Int → Bool) (row col : Int) :
    (Board.ofFn M fun x y => a x && b y).neighborSum M row col =
      sumAround (a ((row + -1) % M)) (a ((row + 0) % M)) (a ((row + 1) % M))
        (b ((col + -1) % M)) (b ((col + 0) % M)) (b ((col + 1) % M)) := by
  have hM0 : M ≠ 0 := by omega
  have hpos : 0 < M := by omega
  have h : ∀ x y : Int, (Board.ofFn M fun x y => a x && b y).isLive (x % M) (y % M)
      = (a (x % M) && b (y % M)) := fun x y =>
    Board.isLive_ofFn _ (Int.emod_nonneg x hM0) (Int.emod_lt_of_pos x hpos)
      (Int.emod_nonneg y hM0) (Int.emod_lt_of_pos y hpos)
  unfold Board.neighborSum sumAround
  rw [h, h, h, h, h, h, h, h]

theorem lifeBoard_ofFn (g : GameOfLife) (hM : 1 ≤ g.M) (a b a' b' : Int → Bool)
    (hcur : g.currentBoard = Board.ofFn g.M fun x y => a x && b y)
    (h : ∀ row col, 0 ≤ row → row < g.M → 0 ≤ col → col < g.M →
      nextState (a row && b col)
        (sumAround (a ((row + -1) % g.M)) (a row) (a ((row + 1) % g.M))
          (b ((col + -1) % g.M)) (b col) (b ((col + 1) % g.M))) = (a' row && b' col)) :
    g.lifeBoard = Board.ofFn g.M fun x y => a' x && b' y := by
  apply Board.ext_square (Board.ofFn_square _) (Board.ofFn_square _)
  intro row col hr0 hr hc0 hc
  rw [Board.isLive_ofFn _ hr0 hr hc0 hc, Board.isLive_ofFn _ hr0 hr hc0 hc]
  unfold GameOfLife.lifeCell
  rw [hcur, neighborSum_ofFn hM, Board.isLive_ofFn _ hr0 hr hc0 hc, wrap_zero hr0 hr,
    wrap_zero hc0 hc]
  exact h row col hr0 hr hc0 hc

theorem row_rule : ∀ a1 a2 a3 b1 b2 b3 : Bool,
    ¬ (a1 = true ∧ a2 = true) → ¬ (a1 = true ∧ a3 = true) → ¬ (a2 = true ∧ a3 = true) →
    nextState (a2 && b2) (sumAround a1 a2 a3 b1 b2 b3)
      = ((a1 || a2 || a3) && (b1 && b2 && b3)) := by
  decide

theorem col_rule : ∀ a1 a2 a3 b1 b2 b3 : Bool,
    ¬ (b1 = true ∧ b2 = true) → ¬ (b1 = true ∧ b3 = true) → ¬ (b2 = true ∧ b3 = true) →
    nextState (a2 && b2) (sumAround a1 a2 a3 b1 b2 b3)
      = ((a1 && a2 && a3) && (b1 || b2 || b3)) := by
  decide

theorem single_window {M a x : Int} (hM : 3 ≤ M) (ha0 : 0 ≤ a) (ha : a < M)
    (hx0 : 0 ≤ x) (hx : x < M) :
    ¬ (((x + -1) % M == a) = true ∧ (x == a) = true) ∧
      ¬ (((x + -1) % M == a) = true ∧ ((x + 1) % M == a) = true) ∧
      ¬ ((x == a) = true ∧ ((x + 1) % M == a) = true) ∧
      (((x + -1) % M == a) || (x == a) || ((x + 1) % M == a)) = inTriple M a x := by
  refine ⟨?_, ?_, ?_, ?_⟩
  · simp only [beq_iff_eq, wrap_pred hx0 hx]
    split_ifs <;> omega
  · simp only [beq_iff_eq, wrap_pred hx0 hx, wrap_succ hx0 hx]
    split_ifs <;> omega
  · simp only [beq_iff_eq, wrap_succ hx0 hx]
    split_ifs <;> omega
  · apply Bool.eq_iff_iff.2
    simp only [inTriple, Bool.or_eq_true, beq_iff_eq, Int.sub_eq_add_neg, wrap_pred hx0 hx,
      wrap_succ hx0 hx, wrap_pred ha0 ha, wrap_succ ha0 ha]
    split_ifs <;> omega

theorem triple_window {M a x : Int} (hM : 4 ≤ M) (ha0 : 0 ≤ a) (ha : a < M)
    (hx0 : 0 ≤ x) (hx : x < M) :
    (inTriple M a ((x + -1) % M) && inTriple M a x && inTriple M a ((x + 1) % M))
      = (x == a) := by
  apply Bool.eq_iff_iff.2
  simp only [inTriple, Bool.and_eq_true, Bool.or_eq_true, beq_iff_eq, Int.sub_eq_add_neg,
    wrap_pred hx0 hx, wrap_succ hx0 hx, wrap_pred ha0 ha, wrap_succ ha0 ha]
  split_ifs <;> omega

theorem horizontal_lifeBoard (g : GameOfLife) (hM : 4 ≤ g.M) (r c : Int)
    (hr0 : 0 ≤ r) (hr : r < g.M) (hc0 : 0 ≤ c) (hc : c < g.M)
    (hcur : g.currentBoard = blinkerHorizontal g.M r c) :
    g.lifeBoard = blinkerVertical g.M r c := by
  apply lifeBoard_ofFn g (by omega) (fun x => x == r) (inTriple g.M c) (inTriple g.M r)
    (fun y => y == c) hcur
  intro row col a b c' d
  obtain ⟨p1, p2, p3, p4⟩ := single_window (show 3 ≤ g.M by omega) hr0 hr a b
  rw [row_rule _ _ _ _ _ _ p1 p2 p3, p4, triple_window hM hc0 hc c' d]

theorem vertical_lifeBoard (g : GameOfLife) (hM : 4 ≤ g.M) (r c : Int)
    (hr0 : 0 ≤ r) (hr : r < g.M) (hc0 : 0 ≤ c) (hc : c < g.M)
    (hcur : g.currentBoard = blinkerVertical g.M r c) :
    g.lifeBoard = blinkerHorizontal g.M r c := by
  apply lifeBoard_ofFn g (by omega) (inTriple g.M r) (fun y => y == c) (fun x => x == r)
    (inTriple g.M c) hcur
  intro row col a b c' d
  obtain ⟨p1, p2, p3, p4⟩ := single_window (show 3 ≤ g.M by omega) hc0 hc c' d
  rw [col_rule _ _ _ _ _ _ p1 p2 p3, p4, triple_window hM hr0 hr a b]

theorem iterate_advance_blinker (g : GameOfLife) (hM : 4 ≤ g.M) {r c : Int}
    (hr0 : 0 ≤ r) (hr : r < g.M) (hc0 : 0 ≤ c) (hc : c < g.M)
    (hcur : g.currentBoard = blinkerHorizontal g.M r c) (k : Nat) :
    (GameOfLife.advance^[k] g).M = g.M ∧
      (GameOfLife.advance^[k] g).currentBoard
        = if k % 2 = 0 then blinkerHorizontal g.M r c else blinkerVertical g.M r c := by
  induction k with
  | zero => exact ⟨rfl, hcur⟩
  | succ k ih =>
    rw [Function.iterate_succ_apply']
    refine ⟨ih.1, ?_⟩
    by_cases hk : k % 2 = 0
    · have h := horizontal_lifeBoard (GameOfLife.advance^[k] g) (by rw [ih.1]; exact hM)
        r c hr0 (by rw [ih.1]; exact hr) hc0
        (by rw [ih.1]; exact hc) (by rw [ih.1, ih.2, if_pos hk])
      rw [ih.1] at h
      rw [if_neg (by omega)]
      exact h
    · have h := vertical_lifeBoard (GameOfLife.advance^[k] g) (by rw [ih.1]; exact hM)
        r c hr0 (by rw [ih.1]; exact hr) hc0
        (by rw [ih.1]; exact hc) (by rw [ih.1, ih.2, if_neg hk])
      rw [ih.1] at h
      rw [if_pos (by omega)]
      exact h

theorem neighborPositions_eq (g : GameOfLife) (hM : 1 ≤ g.M) {row col : Int}
    (hr0 : 0 ≤ row) (hc0 : 0 ≤ col) :
    g.neighborPositions row col
      = neighborOffsets.map fun d => ((row + d.1) % g.M, (col + d.2) % g.M) := by
  have h : ∀ x i : Int, 0 ≤ x → -1 ≤ i → Int.tmod (x + i + g.M) g.M = (x + i) % g.M := by
    intro x i hx hi
    rw [Int.tmod_eq_emod (by omega) (by omega), Int.add_emod_self]
  simp only [GameOfLife.neighborPositions, neighborOffsets, List.map_cons, List.map_nil,
    h row (-1) hr0 (by decide), h row 0 hr0 (by decide), h row 1 hr0 (by decide),
    h col (-1) hc0 (by decide), h col 0 hc0 (by decide), h col 1 hc0 (by decide)]

theorem countNeighbors_eq_positions (g : GameOfLife) (hM : 1 ≤ g.M)
    (hsq : g.currentBoard.Square g.M) {row col : Int} (hr0 : 0 ≤ row) (hc0 : 0 ≤ col) :
    g.countNeighbors row col = some (((g.neighborPositions row col).filter
      fun p => g.currentBoard.isLive p.1 p.2).length : Int) := by
  rw [countNeighbors_eq g hM hsq hr0 hc0, neighborSum_eq_liveOffsets,
    neighborPositions_eq g hM hr0 hc0, List.filter_map, List.length_map]
  rfl

/-! ## Counting live cells -/

theorem wrapInt_of_int {x : Int} (h0 : -2147483648 ≤ x) (h1 : x ≤ 2147483647) :
    wrapInt x = x := by
  unfold wrapInt
  omega

theorem wrapInt_succ (x : Int) : wrapInt (wrapInt x + 1) = wrapInt (x + 1) := by
  unfold wrapInt
  omega

theorem foldl_count_cells (cells : List Bool) (count : Int) :
    cells.foldl (fun count cell => if cell then wrapInt (count + 1) else count) (wrapInt count)
      = wrapInt (count + (cells.countP id : Nat)) := by
  induction cells generalizing count with
  | nil => simp
  | cons cell rest ih =>
    cases cell
    · rw [List.foldl_cons, if_neg (by decide), ih]
      simp
    · rw [List.foldl_cons, if_pos rfl, wrapInt_succ, ih, List.countP_cons_of_pos _ _ rfl]
      congr 1
      push_cast
      omega

theorem foldl_count_rows (board : Board) (count : Int) :
    board.foldl (fun count row =>
      row.foldl (fun count cell => if cell then wrapInt (count + 1) else count) count)
        (wrapInt count)
      = wrapInt (count + ((board.map fun row => row.countP id).sum : Nat)) := by
  induction board generalizing count with
  | nil => simp
  | cons row rest ih =>
    rw [List.foldl_cons, foldl_count_cells, ih, List.map_cons, List.sum_cons]
    congr 1
    push_cast
    omega

theorem countLiveCells_sum (g : GameOfLife) :
    g.countLiveCells = wrapInt ((g.currentBoard.map fun row => row.countP id).sum : Nat) := by
  unfold GameOfLife.countLiveCells
  have h := foldl_count_rows g.currentBoard 0
  rw [Int.zero_add, wrapInt_of_int (by decide) (by decide)] at h
  exact h

theorem Board.eq_ofFn {board : Board} {M : Int} (h : board.Square M) :
    board = Board.ofFn M board.isLive :=
  Board.ext_square h (Board.ofFn_square _)
    (fun _ _ a b c d => (Board.isLive_ofFn _ a b c d).symm)

theorem count_rows_eq {board : Board} {M : Int} (hsq : board.Square M) :
    (board.map fun row => row.countP id).sum
      = (List.product (forRange 0 M) (forRange 0 M)).countP fun p => board.isLive p.1 p.2 := by
  have hb : (board.map fun row => row.countP id)
      = (forRange 0 M).map fun r => (forRange 0 M).countP fun c => board.isLive r c := by
    conv_lhs => rw [Board.eq_ofFn hsq]
    unfold Board.ofFn
    rw [List.map_map]
    apply List.map_congr_left
    intro r _
    simp only [Function.comp, List.countP_map]
    rfl
  rw [hb]
  change _ = List.countP _ ((forRange 0 M).flatMap fun a => (forRange 0 M).map (Prod.mk a))
  rw [List.countP_flatMap]
  congr 1
  apply List.map_congr_left
  intro r _
  simp only [Function.comp, List.countP_map]
  rfl

theorem countP_read_eq {board : Board} {M : Int} (hsq : board.Square M) :
    (List.product (forRange 0 M) (forRange 0 M)).countP (fun p => board.isLive p.1 p.2)
      = (List.product (forRange 0 M) (forRange 0 M)).countP
        (fun p => decide (board.read p.1 p.2 = some true)) := by
  apply List.countP_congr
  rintro ⟨r, c⟩ hp
  change (r, c) ∈ forRange 0 M ×ˢ forRange 0 M at hp
  rw [List.mem_product, mem_forRange, mem_forRange] at hp
  simp [Board.read_square hsq hp.1.1 hp.1.2 hp.2.1 hp.2.2]

theorem product_length {M : Int} (hM : 0 ≤ M) :
    ((List.product (forRange 0 M) (forRange 0 M)).length : Int) = M * M := by
  change ((forRange 0 M ×ˢ forRange 0 M).length : Int) = _
  rw [List.length_product, forRange_length, Int.sub_zero]
  push_cast
  rw [Int.toNat_of_nonneg hM]

theorem countLiveCells_eq (g : GameOfLife) (hsq : g.currentBoard.Square g.M) :
    g.countLiveCells = wrapInt ((List.product (forRange 0 g.M) (forRange 0 g.M)).countP
      fun p => decide (g.currentBoard.read p.1 p.2 = some true) : Nat) := by
  rw [countLiveCells_sum, count_rows_eq hsq, countP_read_eq hsq]

theorem replicate_square (n : Nat) (cell : Bool) :
    Board.Square (List.replicate n (List.replicate n cell)) (n : Int) := by
  refine ⟨by simp, ?_⟩
  intro cells hmem
  rw [(List.mem_replicate.1 hmem).2]
  simp

theorem fullGame_valid : fullGame.Valid :=
  ⟨by decide, by decide, by decide, replicate_square 46341 true, replicate_square 46341 false⟩

theorem fullGame_rows :
    ((fullGame.currentBoard.map fun row => row.countP id).sum : Nat) = 2147488281 := by
  have hrow : (List.replicate 46341 true).countP id = 46341 := by
    rw [List.countP_eq_length.2 (fun x hx => by rw [(List.mem_replicate.1 hx).2]; rfl),
      List.length_replicate]
  change ((List.replicate 46341 (List.replicate 46341 true)).map
    fun row => row.countP id).sum = _
  rw [List.map_replicate, hrow, List.sum_replicate, smul_eq_mul]

/-! ## The assignments of a worker -/

theorem mem_cells (s : Subregion) (row col : Int) :
    (row, col) ∈ s.cells ↔ s.Contains row col := by
  unfold Subregion.cells Subregion.Contains
  simp only [List.mem_flatMap, List.mem_map, mem_forRange, Prod.mk.injEq]
  constructor
  · rintro ⟨i, hi, j, hj, rfl, rfl⟩
    exact ⟨hi.1, hi.2, hj.1, hj.2⟩
  · rintro ⟨a, b, c, d⟩
    exact ⟨row, ⟨a, b⟩, col, ⟨c, d⟩, rfl, rfl⟩

theorem cells_inside (g : GameOfLife) (hv : g.Valid) {k : Nat} {bounds : Subregion}
    (hk : (g.subregions (g.M / g.N))[k]? = some bounds) {p : Int × Int}
    (hp : p ∈ bounds.cells) : 0 ≤ p.1 ∧ p.1 < g.M ∧ 0 ≤ p.2 ∧ p.2 < g.M := by
  obtain ⟨hM, hN, hdiv, -, -⟩ := hv
  obtain ⟨-, h2, h3⟩ := sectionSize_spec hM hN hdiv
  obtain ⟨-, -, a, b, c, d⟩ := subregions_inside g h2 h3 (List.getElem?_mem hk)
  have hc := (mem_cells bounds p.1 p.2).1 hp
  exact ⟨le_trans a hc.1, lt_of_lt_of_le hc.2.1 b, le_trans c hc.2.2.1,
    lt_of_lt_of_le hc.2.2.2 d⟩

theorem storeWord_length (cells : List Bool) (col : Nat) (word : List Bool) :
    (storeWord cells col word).length = cells.length := by
  simp [storeWord]

theorem storeWord_loadWord (cells : List Bool) (col : Nat) (value : Bool) :
    storeWord cells col ((loadWord cells col).set (col % wordBits) value)
      = cells.set col value := by
  apply List.ext_getElem?
  intro k
  unfold storeWord loadWord wordBits
  rw [List.getElem?_map, List.getElem?_enum, List.getElem?_set]
  by_cases hk : k < cells.length
  · rw [List.getElem?_eq_getElem hk]
    simp only [Option.map_some', Nat.zero_add]
    by_cases hw : k / 64 = col / 64
    · rw [if_pos hw, List.getD_eq_getElem?_getD, List.getElem?_set]
      by_cases hc : col = k
      · subst hc
        have hlen : col % 64 < (List.take 64 (List.drop (col / 64 * 64) cells)).length := by
          rw [List.length_take, List.length_drop]
          omega
        rw [if_pos rfl, if_pos hlen, if_pos rfl, if_pos hk]
        rfl
      · have hne : ¬ col % 64 = k % 64 := by omega
        rw [if_neg hne, if_neg hc, List.getElem?_take, List.getElem?_drop]
        have hidx : col / 64 * 64 + k % 64 = k := by omega
        have hlt : k % 64 < 64 := by omega
        rw [if_pos hlt, hidx, List.getElem?_eq_getElem hk]
        rfl
    · rw [if_neg hw]
      have hc : ¬ col = k := by intro h; subst h; exact hw rfl
      rw [if_neg hc]
  · rw [List.getElem?_eq_none (by omega)]
    simp only [Option.map_none']
    split
    · split
      · omega
      · rfl
    · rfl

/-- A load directly followed by its store is the assignment of
`computeSubregion`. -/
theorem storeCell_loadCell (g : GameOfLife) (i j : Int) (word : List Bool)
    (h : g.loadCell i j = some word) : g.storeCell i j word = g.updateCell i j := by
  unfold GameOfLife.loadCell at h
  unfold GameOfLife.storeCell GameOfLife.updateCell Board.write
  cases hn : g.countNeighbors i j with
  | none => rw [hn] at h; exact Option.noConfusion h
  | some neighbors =>
    cases ha : g.currentBoard.read i j with
    | none => rw [hn, ha] at h; exact Option.noConfusion h
    | some alive =>
      rw [hn, ha] at h
      simp only [Option.bind_eq_bind, Option.some_bind] at h ⊢
      by_cases hij : 0 ≤ i ∧ 0 ≤ j
      · rw [if_pos hij] at h ⊢
        rw [if_pos hij]
        cases hrow : g.nextBoard[i.toNat]? with
        | none => rw [hrow] at h; exact Option.noConfusion h
        | some cells =>
          rw [hrow] at h
          simp only at h ⊢
          by_cases hlt : j.toNat < cells.length
          · rw [if_pos hlt] at h ⊢
            rw [if_pos hlt, ← Option.some.inj h, storeWord_loadWord]
            rfl
          · rw [if_neg hlt] at h
            exact Option.noConfusion h
      · rw [if_neg hij] at h
        exact Option.noConfusion h

theorem loadCell_some (g : GameOfLife) (hM : 1 ≤ g.M) (hcur : g.currentBoard.Square g.M)
    (hnext : g.nextBoard.Square g.M) {i j : Int}
    (hi0 : 0 ≤ i) (hi : i < g.M) (hj0 : 0 ≤ j) (hj : j < g.M) :
    ∃ word, g.loadCell i j = some word := by
  have hlen : i.toNat < g.nextBoard.length := by rw [hnext.1]; omega
  have hcells : j.toNat < (g.nextBoard[i.toNat]).length := by
    rw [hnext.2 _ (List.getElem_mem hlen)]; omega
  unfold GameOfLife.loadCell
  rw [countNeighbors_eq g hM hcur hi0 hj0, Board.read_square hcur hi0 hi hj0 hj]
  simp only [Option.bind_eq_bind, Option.some_bind]
  rw [if_pos ⟨hi0, hj0⟩, List.getElem?_eq_getElem hlen]
  simp only [hcells, if_true]
  exact ⟨_, rfl⟩

theorem storeCell_some (g : GameOfLife) (hnext : g.nextBoard.Square g.M) {i j : Int}
    (hi0 : 0 ≤ i) (hi : i < g.M) (hj0 : 0 ≤ j) (hj : j < g.M) (word : List Bool) :
    ∃ g2, g.storeCell i j word = some g2 ∧ g2.M = g.M ∧ g2.N = g.N ∧ g2.MAX = g.MAX ∧
      g2.currentBoard = g.currentBoard ∧ g2.nextBoard.Square g.M := by
  have hlen : i.toNat < g.nextBoard.length := by rw [hnext.1]; omega
  have hcl : (g.nextBoard[i.toNat]).length = g.M.toNat := hnext.2 _ (List.getElem_mem hlen)
  have hcells : j.toNat < (g.nextBoard[i.toNat]).length := by rw [hcl]; omega
  unfold GameOfLife.storeCell
  rw [if_pos ⟨hi0, hj0⟩, List.getElem?_eq_getElem hlen]
  simp only [hcells, if_true]
  refine ⟨_, rfl, rfl, rfl, rfl, rfl, ?_⟩
  refine ⟨by rw [List.length_set]; exact hnext.1, ?_⟩
  intro cells hmem
  rcases List.mem_or_eq_of_mem_set hmem with h1 | h1
  · exact hnext.2 _ h1
  · rw [h1, storeWord_length]; exact hcl

theorem Threads.reached_start (g : GameOfLife) (hv : g.Valid) :
    Threads.Reached g [] (Threads.start g) where
  sameM := rfl
  sameN := rfl
  sameMAX := rfl
  current := hv.2.2.2.1
  next := hv.2.2.2.2
  created := Nat.zero_le _
  phase := Or.inl rfl
  joinedLe := Nat.le_refl _
  own := fun k w h => by simp [Threads.start] at h
  busy := fun k w h => by simp [Threads.start] at h
  idle := fun j h => absurd h (Nat.not_lt_zero _)
  didCreate := fun j h => absurd h (Nat.not_lt_zero _)
  didJoin := fun j h => absurd h (Nat.not_lt_zero _)
  didSwap := fun j h => absurd h (Nat.not_lt_zero _)

theorem subregions_congr {g1 g2 : GameOfLife} (h : g1.N = g2.N) (sectionSize : Int) :
    g1.subregions sectionSize = g2.subregions sectionSize := by
  unfold GameOfLife.subregions
  rw [h]

theorem getElem?_snoc_new {α : Type} {l : List α} {x y : α} {k : Nat}
    (hk : (l ++ [x])[k]? = some y) (hge : ¬ k < l.length) : k = l.length ∧ x = y := by
  have hlt : k < (l ++ [x]).length := (List.getElem?_eq_some.1 hk).1
  simp only [List.length_append, List.length_singleton] at hlt
  have hke : k = l.length := by omega
  subst hke
  simp only [List.getElem?_append_right (Nat.le_refl _), Nat.sub_self,
    List.getElem?_cons_zero, Option.some.injEq] at hk
  exact ⟨rfl, hk⟩

theorem Threads.reached_create {g : GameOfLife} {done : List Action} {s : Threads}
    (hr : Threads.Reached g done s) {bounds : Subregion}
    (hb : (g.subregions (g.M / g.N))[s.tasks.length]? = some bounds) :
    Threads.Reached g (done ++ [Action.create s.generation s.tasks.length])
      { s with tasks := s.tasks ++ [{ cells := bounds.cells, register := none }] } := by
  obtain ⟨hlt, -⟩ := List.getElem?_eq_some.1 hb
  have hj0 : s.joined = 0 := by
    rcases hr.phase with h | h
    · exact h
    · omega
  refine ⟨hr.sameM, hr.sameN, hr.sameMAX, hr.current, hr.next, ?_, Or.inl hj0, ?_, ?_, ?_,
    ?_, ?_, ?_, ?_⟩
  · simp only [List.length_append, List.length_singleton]
    omega
  · simp only [List.length_append, List.length_singleton]
    have := hr.joinedLe
    omega
  · intro k w hk
    by_cases hlt2 : k < s.tasks.length
    · rw [List.getElem?_append_left hlt2] at hk
      exact hr.own k w hk
    · obtain ⟨hke, hw⟩ := getElem?_snoc_new hk hlt2
      subst hke
      exact ⟨bounds, hb, fun p hp => by rw [← hw] at hp; exact hp⟩
  · intro k w hk hcells
    by_cases hlt2 : k < s.tasks.length
    · rw [List.getElem?_append_left hlt2] at hk
      exact hr.busy k w hk hcells
    · obtain ⟨-, hw⟩ := getElem?_snoc_new hk hlt2
      rw [← hw]
  · intro j hj
    change j < s.joined at hj
    omega
  · intro j hj
    simp only [List.length_append, List.length_singleton] at hj
    rw [List.mem_append]
    by_cases hlt2 : j < s.tasks.length
    · exact Or.inl (hr.didCreate j hlt2)
    · have : j = s.tasks.length := by omega
      subst this
      exact Or.inr (List.mem_singleton.2 rfl)
  · intro j hj
    exact List.mem_append.2 (Or.inl (hr.didJoin j hj))
  · intro generation hgen
    exact List.mem_append.2 (Or.inl (hr.didSwap generation hgen))

theorem Threads.reached_join {g : GameOfLife} {done : List Action} {s : Threads}
    (hr : Threads.Reached g done s)
    (hall : s.tasks.length = (g.subregions (g.M / g.N)).length)
    (hidle : s.tasks[s.joined]? = some ⟨[], none⟩) :
    Threads.Reached g (done ++ [Action.join s.generation s.joined])
      { s with joined := s.joined + 1 } := by
  obtain ⟨hlt, -⟩ := List.getElem?_eq_some.1 hidle
  refine ⟨hr.sameM, hr.sameN, hr.sameMAX, hr.current, hr.next, hr.created, Or.inr hall, hlt,
    hr.own, hr.busy, ?_, ?_, ?_, ?_⟩
  · intro j hj
    change j < s.joined + 1 at hj
    by_cases hlt2 : j < s.joined
    · exact hr.idle j hlt2
    · have : j = s.joined := by omega
      subst this
      exact hidle
  · intro j hj
    exact List.mem_append.2 (Or.inl (hr.didCreate j hj))
  · intro j hj
    change j < s.joined + 1 at hj
    rw [List.mem_append]
    by_cases hlt2 : j < s.joined
    · exact Or.inl (hr.didJoin j hlt2)
    · have : j = s.joined := by omega
      subst this
      exact Or.inr (List.mem_singleton.2 rfl)
  · intro generation hgen
    exact List.mem_append.2 (Or.inl (hr.didSwap generation hgen))

/-- A step of a worker: the boards `game` keep the configuration and their
side, and the worker `k` goes from the cells `cell :: rest` to `cells`, a part
of them, holding a loaded word only if a cell is left. -/
theorem Threads.reached_worker {g : GameOfLife} {done : List Action} {s : Threads}
    (hr : Threads.Reached g done s) {k : Nat} (old new : Worker) (a : Action)
    (hk : s.tasks[k]? = some old) (hcells : ∀ p ∈ new.cells, p ∈ old.cells)
    (hold : old.cells ≠ []) (hbusy : new.cells = [] → new.register = none)
    {game : GameOfLife} (hM : game.M = g.M) (hN : game.N = g.N) (hMAX : game.MAX = g.MAX)
    (hcur : game.currentBoard.Square g.M) (hnext : game.nextBoard.Square g.M) :
    Threads.Reached g (done ++ [a]) { s with game := game, tasks := s.tasks.set k new } := by
  obtain ⟨hklt, -⟩ := List.getElem?_eq_some.1 hk
  refine ⟨hM, hN, hMAX, hcur, hnext, ?_, ?_, ?_, ?_, ?_, ?_, ?_, ?_, ?_⟩
  · simp only [List.length_set]; exact hr.created
  · simp only [List.length_set]; exact hr.phase
  · simp only [List.length_set]; exact hr.joinedLe
  · intro k2 w hk2
    change (s.tasks.set k new)[k2]? = some w at hk2
    by_cases heq : k = k2
    · subst heq
      rw [List.getElem?_set, if_pos rfl, if_pos hklt] at hk2
      obtain ⟨bounds, hb, hown⟩ := hr.own k old hk
      rw [← Option.some.inj hk2]
      exact ⟨bounds, hb, fun p hp => hown p (hcells p hp)⟩
    · rw [List.getElem?_set, if_neg heq] at hk2
      exact hr.own k2 w hk2
  · intro k2 w hk2 hw
    change (s.tasks.set k new)[k2]? = some w at hk2
    by_cases heq : k = k2
    · subst heq
      rw [List.getElem?_set, if_pos rfl, if_pos hklt] at hk2
      rw [← Option.some.inj hk2] at hw ⊢
      exact hbusy hw
    · rw [List.getElem?_set, if_neg heq] at hk2
      exact hr.busy k2 w hk2 hw
  · intro j hj
    change j < s.joined at hj
    have hjd := hr.idle j hj
    change (s.tasks.set k new)[j]? = some ⟨[], none⟩
    by_cases heq : k = j
    · subst heq
      rw [hk] at hjd
      rw [Option.some.inj hjd] at hold
      exact absurd rfl hold
    · rw [List.getElem?_set, if_neg heq]
      exact hjd
  · intro j hj
    simp only [List.length_set] at hj
    exact List.mem_append.2 (Or.inl (hr.didCreate j hj))
  · intro j hj
    exact List.mem_append.2 (Or.inl (hr.didJoin j hj))
  · intro generation hgen
    exact List.mem_append.2 (Or.inl (hr.didSwap generation hgen))

theorem Threads.worker_cell {g : GameOfLife} (hv : g.Valid) {done : List Action}
    {s : Threads} (hr : Threads.Reached g done s) {k : Nat} {cell : Int × Int}
    {rest : List (Int × Int)} {register : Option (List Bool)}
    (hk : s.tasks[k]? = some ⟨cell :: rest, register⟩) :
    0 ≤ cell.1 ∧ cell.1 < s.game.M ∧ 0 ≤ cell.2 ∧ cell.2 < s.game.M := by
  obtain ⟨bounds, hb, hown⟩ := hr.own k _ hk
  rw [hr.sameM]
  exact cells_inside g hv hb (hown cell (List.mem_cons_self _ _))

theorem Threads.reached_load {g : GameOfLife} (hv : g.Valid) {done : List Action}
    {s : Threads} (hr : Threads.Reached g done s) {k : Nat} {cell : Int × Int}
    {rest : List (Int × Int)} (hk : s.tasks[k]? = some ⟨cell :: rest, none⟩) :
    ∃ word, s.game.loadCell cell.1 cell.2 = some word ∧
      Threads.Reached g (done ++ [Action.load s.generation k])
        { s with tasks := s.tasks.set k ⟨cell :: rest, some word⟩ } := by
  obtain ⟨c1, c2, c3, c4⟩ := Threads.worker_cell hv hr hk
  obtain ⟨word, hword⟩ := loadCell_some s.game (by rw [hr.sameM]; exact hv.1)
    (by rw [hr.sameM]; exact hr.current) (by rw [hr.sameM]; exact hr.next) c1 c2 c3 c4
  exact ⟨word, hword, Threads.reached_worker hr ⟨cell :: rest, none⟩ ⟨cell :: rest, some word⟩ _
    hk (fun p hp => hp) (List.cons_ne_nil _ _) (fun h => absurd h (List.cons_ne_nil _ _))
    hr.sameM hr.sameN hr.sameMAX hr.current hr.next⟩

theorem Threads.reached_store {g : GameOfLife} (hv : g.Valid) {done : List Action}
    {s : Threads} (hr : Threads.Reached g done s) {k : Nat} {cell : Int × Int}
    {rest : List (Int × Int)} {word : List Bool}
    (hk : s.tasks[k]? = some ⟨cell :: rest, some word⟩) :
    ∃ game, s.game.storeCell cell.1 cell.2 word = some game ∧
      Threads.Reached g (done ++ [Action.store s.generation k])
        { s with game := game, tasks := s.tasks.set k ⟨rest, none⟩ } := by
  obtain ⟨c1, c2, c3, c4⟩ := Threads.worker_cell hv hr hk
  obtain ⟨game, h0, h1, h2, h3, h4, h5⟩ := storeCell_some s.game
    (by rw [hr.sameM]; exact hr.next) c1 c2 c3 c4 word
  refine ⟨game, h0, Threads.reached_worker hr ⟨cell :: rest, some word⟩ ⟨rest, none⟩ _ hk
    (fun p hp => List.mem_cons_of_mem _ hp) (List.cons_ne_nil _ _) (fun _ => rfl) (by rw [h1, hr.sameM]) (by rw [h2, hr.sameN])
    (by rw [h3, hr.sameMAX]) (by rw [h4]; exact hr.current) (by rw [← hr.sameM]; exact h5)⟩

theorem Threads.reached_swap {g : GameOfLife} {done : List Action} {s : Threads}
    (hr : Threads.Reached g done s) :
    Threads.Reached g (done ++ [Action.swap s.generation])
      { game := { s.game with currentBoard := s.game.nextBoard },
        generation := s.generation + 1, tasks := [], joined := 0 } := by
  refine ⟨hr.sameM, hr.sameN, hr.sameMAX, hr.next, hr.next, Nat.zero_le _, Or.inl rfl,
    Nat.le_refl _, ?_, ?_, ?_, ?_, ?_, ?_⟩
  · intro k w hk
    simp at hk
  · intro k w hk
    simp at hk
  · intro j hj
    exact absurd hj (Nat.not_lt_zero _)
  · intro j hj
    exact absurd hj (Nat.not_lt_zero _)
  · intro j hj
    exact absurd hj (Nat.not_lt_zero _)
  · intro generation hgen
    change generation < s.generation + 1 at hgen
    rw [List.mem_append]
    by_cases hlt : generation < s.generation
    · exact Or.inl (hr.didSwap generation hlt)
    · have : generation = s.generation := by omega
      subst this
      exact Or.inr (List.mem_singleton.2 rfl)

theorem Threads.step_sound {g : GameOfLife} (hv : g.Valid) {done : List Action}
    {s : Threads} (hr : Threads.Reached g done s) (a : Action) (s2 : Threads)
    (h : Threads.step (g.M / g.N) s a = some s2) :
    Threads.Reached g (done ++ [a]) s2 ∧
    (∀ generation k, a = Action.join generation k →
      ∀ j, j < (g.subregions (g.M / g.N)).length → Action.create generation j ∈ done) ∧
    (∀ generation, a = Action.swap generation →
      ∀ j, j < (g.subregions (g.M / g.N)).length →
        Action.create generation j ∈ done ∧ Action.join generation j ∈ done ∧
        s.tasks[j]? = some ⟨[], none⟩) ∧
    (∀ generation k,
      a = Action.create (generation + 1) k ∨ a = Action.load (generation + 1) k
        ∨ a = Action.store (generation + 1) k →
      Action.swap generation ∈ done) := by
  have hsub : s.game.subregions (g.M / g.N) = g.subregions (g.M / g.N) :=
    subregions_congr hr.sameN _
  cases a with
  | create generation worker =>
    unfold Threads.step at h
    simp only at h
    split at h
    · next hc =>
      obtain ⟨rfl, -, rfl⟩ := hc
      split at h
      · next bounds hb =>
        rw [hsub] at hb
        rw [← Option.some.inj h]
        refine ⟨Threads.reached_create hr hb, ?_, ?_, ?_⟩
        · intro generation k he
          exact Action.noConfusion he
        · intro generation he
          exact Action.noConfusion he
        · intro generation k he
          rcases he with he | he | he
          · injection he with h1 h2
            exact hr.didSwap generation (by omega)
          · exact Action.noConfusion he
          · exact Action.noConfusion he
      · exact Option.noConfusion h
    · exact Option.noConfusion h
  | load generation worker =>
    unfold Threads.step at h
    simp only at h
    split at h
    · next hc =>
      subst hc
      split at h
      · next cell rest hk =>
        obtain ⟨word, hword, hreach⟩ := Threads.reached_load hv hr hk
        rw [hword] at h
        rw [← Option.some.inj h]
        refine ⟨hreach, ?_, ?_, ?_⟩
        · intro generation k he
          exact Action.noConfusion he
        · intro generation he
          exact Action.noConfusion he
        · intro generation k he
          rcases he with he | he | he
          · exact Action.noConfusion he
          · injection he with h1 h2
            exact hr.didSwap generation (by omega)
          · exact Action.noConfusion he
      · exact Option.noConfusion h
    · exact Option.noConfusion h
  | store generation worker =>
    unfold Threads.step at h
    simp only at h
    split at h
    · next hc =>
      subst hc
      split at h
      · next cell rest word hk =>
        obtain ⟨game, hgame, hreach⟩ := Threads.reached_store hv hr hk
        rw [hgame] at h
        rw [← Option.some.inj h]
        refine ⟨hreach, ?_, ?_, ?_⟩
        · intro generation k he
          exact Action.noConfusion he
        · intro generation he
          exact Action.noConfusion he
        · intro generation k he
          rcases he with he | he | he
          · exact Action.noConfusion he
          · exact Action.noConfusion he
          · injection he with h1 h2
            exact hr.didSwap generation (by omega)
      · exact Option.noConfusion h
    · exact Option.noConfusion h
  | join generation worker =>
    unfold Threads.step at h
    simp only at h
    split at h
    · next hc =>
      obtain ⟨rfl, -, hall, rfl, hidle⟩ := hc
      rw [hsub] at hall
      rw [← Option.some.inj h]
      refine ⟨Threads.reached_join hr hall hidle, ?_, ?_, ?_⟩
      · intro generation k he j hj
        injection he with h1 h2
        subst h1
        exact hr.didCreate j (by omega)
      · intro generation he
        exact Action.noConfusion he
      · intro generation k he
        rcases he with he | he | he <;> exact Action.noConfusion he
    · exact Option.noConfusion h
  | swap generation =>
    unfold Threads.step at h
    simp only at h
    split at h
    · next hc =>
      obtain ⟨rfl, -, hall, hjoined⟩ := hc
      rw [hsub] at hall
      rw [← Option.some.inj h]
      refine ⟨Threads.reached_swap hr, ?_, ?_, ?_⟩
      · intro generation k he
        exact Action.noConfusion he
      · intro generation he
        injection he with h1
        subst h1
        exact fun j hj => ⟨hr.didCreate j (by omega), hr.didJoin j (by omega),
          hr.idle j (by omega)⟩
      · intro generation k he
        rcases he with he | he | he <;> exact Action.noConfusion he
    · exact Option.noConfusion h

theorem runThreads_eq (g : GameOfLife) (hv : g.Valid) (schedule : List Action) :
    g.runThreads schedule
      = schedule.foldlM (Threads.step (g.M / g.N)) (Threads.start g) := by
  unfold GameOfLife.runThreads
  rw [(generation_eq g hv).1]
  rfl

theorem runThreads_snoc (g : GameOfLife) (hv : g.Valid) (done : List Action) (a : Action) :
    g.runThreads (done ++ [a])
      = (g.runThreads done).bind fun s => Threads.step (g.M / g.N) s a := by
  rw [runThreads_eq g hv, runThreads_eq g hv, List.foldlM_append]
  cases List.foldlM (Threads.step (g.M / g.N)) (Threads.start g) done with
  | none => rfl
  | some s =>
    simp only [Option.bind_eq_bind, Option.some_bind, List.foldlM_cons, List.foldlM_nil]
    cases Threads.step (g.M / g.N) s a <;> rfl

theorem runThreads_reached (g : GameOfLife) (hv : g.Valid) (done : List Action)
    (s : Threads) (h : g.runThreads done = some s) : Threads.Reached g done s := by
  induction done using List.reverseRecOn generalizing s with
  | nil =>
    rw [runThreads_eq g hv] at h
    rw [← Option.some.inj h]
    exact Threads.reached_start g hv
  | append_singleton done a ih =>
    rw [runThreads_snoc g hv] at h
    cases hd : g.runThreads done with
    | none => rw [hd] at h; exact Option.noConfusion h
    | some s0 =>
      rw [hd] at h
      exact (Threads.step_sound hv (ih s0 hd) a s h).1

theorem Threads.progress {g : GameOfLife} (hv : g.Valid) {done : List Action} {s : Threads}
    (hr : Threads.Reached g done s) (hgen : (s.generation : Int) < g.MAX) :
    ∃ a s2, Threads.step (g.M / g.N) s a = some s2 := by
  have hsub : s.game.subregions (g.M / g.N) = g.subregions (g.M / g.N) :=
    subregions_congr hr.sameN _
  have hMAX : (s.generation : Int) < s.game.MAX := by rw [hr.sameMAX]; exact hgen
  by_cases hall : s.tasks.length = (g.subregions (g.M / g.N)).length
  · by_cases hjoined : s.joined = s.tasks.length
    · refine ⟨Action.swap s.generation, ?_⟩
      simp only [Threads.step]
      rw [if_pos ⟨trivial, hMAX, by rw [hsub]; exact hall, hjoined⟩]
      exact ⟨_, rfl⟩
    · have hlt : s.joined < s.tasks.length := by
        have := hr.joinedLe
        omega
      cases hk : s.tasks[s.joined]? with
      | none =>
        rw [List.getElem?_eq_getElem hlt] at hk
        exact Option.noConfusion hk
      | some w =>
        obtain ⟨cells, register⟩ := w
        cases cells with
        | nil =>
          have hreg : register = none := hr.busy _ _ hk rfl
          subst hreg
          refine ⟨Action.join s.generation s.joined, ?_⟩
          simp only [Threads.step]
          rw [if_pos ⟨trivial, hMAX, by rw [hsub]; exact hall, trivial, hk⟩]
          exact ⟨_, rfl⟩
        | cons cell rest =>
          cases register with
          | none =>
            obtain ⟨word, hword, -⟩ := Threads.reached_load hv hr hk
            refine ⟨Action.load s.generation s.joined, ?_⟩
            simp only [Threads.step]
            rw [if_pos trivial, hk]
            simp only [hword]
            exact ⟨_, rfl⟩
          | some word =>
            obtain ⟨game, hgame, -⟩ := Threads.reached_store hv hr hk
            refine ⟨Action.store s.generation s.joined, ?_⟩
            simp only [Threads.step]
            rw [if_pos trivial, hk]
            simp only [hgame]
            exact ⟨_, rfl⟩
  · have hlt : s.tasks.length < (g.subregions (g.M / g.N)).length := by
      have := hr.created
      omega
    refine ⟨Action.create s.generation s.tasks.length, ?_⟩
    simp only [Threads.step]
    rw [if_pos ⟨trivial, hMAX, trivial⟩, hsub, List.getElem?_eq_getElem hlt]
    exact ⟨_, rfl⟩

/-! ## The claims -/

/-- C1: for `M ≥ 1`, `N ≥ 1` with `M % N == 0`, `run` computes the section size
`M / N`, and its `N * N` subregion bounds are squares of that side inside the
grid such that every cell of the `M × M` index space lies in exactly one of
them. -/
theorem subregions_tile (g : GameOfLife) (hM : 1 ≤ g.M) (hN : 1 ≤ g.N)
    (hdiv : Int.tmod g.M g.N = 0) :
    ∃ sectionSize, cdiv g.M g.N = some sectionSize ∧ g.N * sectionSize = g.M ∧
      (g.subregions sectionSize).length = (g.N * g.N).toNat ∧
      (∀ s ∈ g.subregions sectionSize,
        s.endRow - s.startRow = sectionSize ∧ s.endCol - s.startCol = sectionSize ∧
        0 ≤ s.startRow ∧ s.endRow ≤ g.M ∧ 0 ≤ s.startCol ∧ s.endCol ≤ g.M) ∧
      (∀ row col, 0 ≤ row → row < g.M → 0 ≤ col → col < g.M →
        (g.subregions sectionSize).countP (fun s => decide (s.Contains row col)) = 1) := by
  obtain ⟨h1, h2, h3⟩ := sectionSize_spec hM hN hdiv
  refine ⟨g.M / g.N, h1, h3, ?_, ?_, ?_⟩
  · rw [subregions_length]
    have hn : (g.N.toNat : Int) = g.N := Int.toNat_of_nonneg (by omega)
    have hnn : ((g.N * g.N).toNat : Int) = g.N * g.N :=
      Int.toNat_of_nonneg (Int.mul_nonneg (by omega) (by omega))
    apply Int.ofNat_inj.1
    push_cast
    rw [hn, hnn]
  · intro s hs
    exact subregions_inside g h2 h3 hs
  · intro row col hr0 hr hc0 hc
    exact subregions_countP g h2 h3 hr0 hr hc0 hc

theorem subregions_tile_witness :
    ∃ sectionSize, cdiv 6 3 = some sectionSize ∧ (3 : Int) * sectionSize = 6 ∧
      ((GameOfLife.mk 6 3 1 (Board.dead 6) (Board.dead 6)).subregions sectionSize).length
        = ((3 : Int) * 3).toNat ∧
      (∀ s ∈ (GameOfLife.mk 6 3 1 (Board.dead 6) (Board.dead 6)).subregions sectionSize,
        s.endRow - s.startRow = sectionSize ∧ s.endCol - s.startCol = sectionSize ∧
        0 ≤ s.startRow ∧ s.endRow ≤ 6 ∧ 0 ≤ s.startCol ∧ s.endCol ≤ 6) ∧
      (∀ row col, 0 ≤ row → row < 6 → 0 ≤ col → col < 6 →
        ((GameOfLife.mk 6 3 1 (Board.dead 6) (Board.dead 6)).subregions sectionSize).countP
          (fun s => decide (s.Contains row col)) = 1) :=
  subregions_tile (GameOfLife.mk 6 3 1 (Board.dead 6) (Board.dead 6))
    (by decide) (by decide) (by decide)

/-- C2, at the failing input: on the 4 × 4 board holding a 2 × 2 block, with
four workers, the cell `(1, 2)` is live and `countNeighbors(1, 2)` is 3, so the
Life rule keeps it live, and the next buffer holds it dead.  In the schedule
`raceSchedule` of one generation of `run`, worker 0 stores the word of row 1
that it loaded before worker 1 stored the cell: after the generation the cell
is dead in the current grid, as it was in the old next buffer, and every other
cell holds its Life rule. -/
theorem generation_loses_assignment :
    raceGame.Valid ∧
    raceGame.currentBoard.read 1 2 = some true ∧ raceGame.countNeighbors 1 2 = some 3 ∧
    raceGame.nextBoard.read 1 2 = some false ∧
    (raceGame.runThreads raceSchedule).isSome = true ∧
    (raceGame.boardAfter raceSchedule 1).map (fun board => board.read 1 2)
      = some (some false) ∧
    raceGame.boardAfter raceSchedule 1
      = some [[false, false, false, false], [false, true, false, false],
          [false, true, true, false], [false, false, false, false]] ∧
    raceGame.lifeBoard
      = [[false, false, false, false], [false, true, true, false],
          [false, true, true, false], [false, false, false, false]] := by
  decide

/-- C3, as stated, fails on boards of side 1 and 2: on the 1 × 1 board whose
cell is live `countNeighbors(0, 0)` is 8 although the cell has no live
neighbour other than itself, and on the 2 × 2 board whose only live cell is
`(1, 1)` it is 4 although one neighbouring cell is live. -/
theorem countNeighbors_small_boards :
    singleCellGame.Valid ∧ singleCellGame.countNeighbors 0 0 = some 8 ∧
      (singleCellGame.currentBoard.liveNeighborCells singleCellGame.M 0 0).length = 0 ∧
    cornerCellGame.Valid ∧ cornerCellGame.countNeighbors 0 0 = some 4 ∧
      (cornerCellGame.currentBoard.liveNeighborCells cornerCellGame.M 0 0).length = 1 := by
  decide

/-- C3, amended: for `M ≥ 1`, an `M × M` current grid and a cell in range,
`countNeighbors` returns an integer in `[0, 8]`, the number of the eight
offsets `(i, j) ≠ (0, 0)` whose cell `((row + i) mod M, (col + j) mod M)` is
live, where `row - 1` wraps to `M - 1` and `row + 1` wraps to `0`, likewise for
columns; for `M ≥ 3` this is the number of live cells among the toroidal
neighbours of `(row, col)`, the cell itself not counted. -/
theorem countNeighbors_counts_offsets (g : GameOfLife) (hM : 1 ≤ g.M)
    (hsq : g.currentBoard.Square g.M) (row col : Int)
    (hr0 : 0 ≤ row) (hr : row < g.M) (hc0 : 0 ≤ col) (hc : col < g.M) :
    ∃ n : Int, g.countNeighbors row col = some n ∧ 0 ≤ n ∧ n ≤ 8 ∧
      n = (g.currentBoard.liveOffsets g.M row col).length ∧
      (row + -1) % g.M = (if row = 0 then g.M - 1 else row - 1) ∧
      (row + 1) % g.M = (if row + 1 = g.M then 0 else row + 1) ∧
      (col + -1) % g.M = (if col = 0 then g.M - 1 else col - 1) ∧
      (col + 1) % g.M = (if col + 1 = g.M then 0 else col + 1) ∧
      (3 ≤ g.M → n = (g.currentBoard.liveNeighborCells g.M row col).length) := by
  refine ⟨_, countNeighbors_eq g hM hsq hr0 hc0, (neighborSum_bounds _ _ _ _).1,
    (neighborSum_bounds _ _ _ _).2, neighborSum_eq_liveOffsets _ _ _ _,
    wrap_pred hr0 hr, wrap_succ hr0 hr, wrap_pred hc0 hc, wrap_succ hc0 hc, ?_⟩
  intro h3
  rw [neighborSum_eq_liveOffsets, liveNeighborCells_length _ h3 hr0 hr hc0 hc]

theorem countNeighbors_counts_offsets_witness :
    ∃ n : Int, sampleCorner.countNeighbors 0 0 = some n ∧ 0 ≤ n ∧ n ≤ 8 ∧
      n = (sampleCorner.currentBoard.liveOffsets sampleCorner.M 0 0).length ∧
      ((0 : Int) + -1) % sampleCorner.M = (if (0 : Int) = 0 then sampleCorner.M - 1 else 0 - 1) ∧
      ((0 : Int) + 1) % sampleCorner.M = (if (0 : Int) + 1 = sampleCorner.M then 0 else 0 + 1) ∧
      ((0 : Int) + -1) % sampleCorner.M = (if (0 : Int) = 0 then sampleCorner.M - 1 else 0 - 1) ∧
      ((0 : Int) + 1) % sampleCorner.M = (if (0 : Int) + 1 = sampleCorner.M then 0 else 0 + 1) ∧
      (3 ≤ sampleCorner.M →
        n = (sampleCorner.currentBoard.liveNeighborCells sampleCorner.M 0 0).length) :=
  countNeighbors_counts_offsets sampleCorner (by decide) (by decide) 0 0
    (by decide) (by decide) (by decide) (by decide)

/-- C4: the value `computeSubregion` writes for a cell is `nextState` of the
cell and of its neighbour count, a count in `[0, 8]`; `nextState` is true iff
(alive and the count is 2 or 3) or (dead and the count is 3), on every flag and
count, with the six table entries of the specification. -/
theorem computeSubregion_writes_rule (g : GameOfLife) (hv : g.Valid) (s : Subregion)
    (hr : 0 ≤ s.startRow) (hr' : s.endRow ≤ g.M) (hc : 0 ≤ s.startCol) (hc' : s.endCol ≤ g.M) :
    (∀ alive neighbors, nextState alive neighbors = true ↔
      (alive = true ∧ (neighbors = 2 ∨ neighbors = 3)) ∨ (alive = false ∧ neighbors = 3)) ∧
    (nextState true 1 = false ∧ nextState true 2 = true ∧ nextState true 3 = true ∧
      nextState true 4 = false ∧ nextState false 3 = true ∧ nextState false 2 = false) ∧
    ∃ after, g.computeSubregion s.startRow s.endRow s.startCol s.endCol = some after ∧
      ∀ row col, s.Contains row col →
        ∃ alive neighbors, g.currentBoard.read row col = some alive ∧
          g.countNeighbors row col = some neighbors ∧ 0 ≤ neighbors ∧ neighbors ≤ 8 ∧
          after.nextBoard.read row col = some (nextState alive neighbors) := by
  obtain ⟨hM, hN, hdiv, hcur, hnext⟩ := hv
  refine ⟨nextState_iff, by decide, ?_⟩
  obtain ⟨after, h1, -, -, -, -, h5, h6⟩ :=
    computeSubregion_updated hM hcur (GameOfLife.Updated.start g hnext) s hr hr' hc hc'
  refine ⟨after, h1, ?_⟩
  intro row col hin
  have a : 0 ≤ row := le_trans hr hin.1
  have b : row < g.M := lt_of_lt_of_le hin.2.1 hr'
  have c : 0 ≤ col := le_trans hc hin.2.2.1
  have d : col < g.M := lt_of_lt_of_le hin.2.2.2 hc'
  refine ⟨g.currentBoard.isLive row col, g.currentBoard.neighborSum g.M row col,
    Board.read_square hcur a b c d, countNeighbors_eq g hM hcur a c,
    (neighborSum_bounds _ _ _ _).1, (neighborSum_bounds _ _ _ _).2, ?_⟩
  rw [Board.read_square h5 a b c d, (h6 row col a b c d).1 (Or.inr hin)]
  rfl

theorem computeSubregion_writes_rule_witness :
    sampleGame.Valid ∧
    (∀ alive neighbors, nextState alive neighbors = true ↔
      (alive = true ∧ (neighbors = 2 ∨ neighbors = 3)) ∨ (alive = false ∧ neighbors = 3)) ∧
    (nextState true 1 = false ∧ nextState true 2 = true ∧ nextState true 3 = true ∧
      nextState true 4 = false ∧ nextState false 3 = true ∧ nextState false 2 = false) ∧
    ∃ after, sampleGame.computeSubregion 0 2 2 4 = some after ∧
      ∀ row col, (Subregion.mk 0 2 2 4).Contains row col →
        ∃ alive neighbors, sampleGame.currentBoard.read row col = some alive ∧
          sampleGame.countNeighbors row col = some neighbors ∧ 0 ≤ neighbors ∧
          neighbors ≤ 8 ∧
          after.nextBoard.read row col = some (nextState alive neighbors) :=
  ⟨by decide, computeSubregion_writes_rule sampleGame (by decide) (Subregion.mk 0 2 2 4)
    (by decide) (by decide) (by decide) (by decide)⟩

/-- C5, at the failing input: one generation on the 4 × 4 board holding a
2 × 2 block gives the block with the single worker of `N = 1`, and with the
four workers of `N = 2` in the schedule `raceSchedule` it gives a board on which
the cell `(1, 2)` is dead. -/
theorem generation_depends_on_partition :
    ({ raceGame with N := 1 } : GameOfLife).Valid ∧ raceGame.Valid ∧
    ({ raceGame with N := 1 } : GameOfLife).boardAfter soloSchedule 1
      = some [[false, false, false, false], [false, true, true, false],
          [false, true, true, false], [false, false, false, false]] ∧
    raceGame.boardAfter raceSchedule 1
      = some [[false, false, false, false], [false, true, false, false],
          [false, true, true, false], [false, false, false, false]] := by
  decide

/-- C6, at the failing input: the 4 × 4 board holding the 2 × 2 block with
upper left corner `(1, 1)`, with `N = 2`, is not the board after one generation
of `run` in the schedule `raceSchedule`: the cell `(1, 2)` of the block is
dead. -/
theorem block_loses_cell :
    raceGame.Valid ∧ raceGame.currentBoard = blockBoard 4 1 1 ∧
    (raceGame.boardAfter raceSchedule 1).isSome = true ∧
    raceGame.boardAfter raceSchedule 1 ≠ some (blockBoard 4 1 1) ∧
    (blockBoard 4 1 1).read 1 2 = some true ∧
    (raceGame.boardAfter raceSchedule 1).map (fun board => board.read 1 2)
      = some (some false) := by
  decide

/-- C7, as stated, fails for `M = 3`: the horizontal triple fills its row of
the 3 × 3 torus, and after one generation every cell is live. -/
theorem blinker_fills_side_three :
    (GameOfLife.mk 3 1 1 (blinkerHorizontal 3 1 1) (Board.dead 3)).Valid ∧
    blinkerHorizontal 3 1 1
      = [[false, false, false], [true, true, true], [false, false, false]] ∧
    (GameOfLife.mk 3 1 1 (blinkerHorizontal 3 1 1) (Board.dead 3)).run.map
        (fun p => p.1.currentBoard)
      = some [[true, true, true], [true, true, true], [true, true, true]] ∧
    blinkerVertical 3 1 1 = [[false, true, false], [false, true, false], [false, true, false]] := by
  decide

/-- C7, amended: for `M ≥ 4`, a single worker (`N = 1`) and an otherwise dead
toroidal board holding the horizontal triple `(r, c - 1)`, `(r, c)`,
`(r, c + 1)`, in a `run` of `k` generations the board displayed after
generation `i + 1` has exactly the vertical triple `(r - 1, c)`, `(r, c)`,
`(r + 1, c)` live when `i + 1` is odd and exactly the horizontal triple when
`i + 1` is even, and the final board is the one of generation `k`. -/
theorem blinker_oscillates (M : Int) (hM : 4 ≤ M)
    (r c : Int) (hr0 : 0 ≤ r) (hr : r < M) (hc0 : 0 ≤ c) (hc : c < M) (k : Nat)
    (next : Board) (hnext : next.Square M) :
    ∃ final events,
      (GameOfLife.mk M 1 k (blinkerHorizontal M r c) next).run = some (final, events) ∧
      final.currentBoard
        = (if k % 2 = 0 then blinkerHorizontal M r c else blinkerVertical M r c) ∧
      events.filter Event.isDisplay = (List.range k).map fun i =>
        Event.display
          (if (i + 1) % 2 = 0 then blinkerHorizontal M r c else blinkerVertical M r c) := by
  have hv : (GameOfLife.mk M 1 k (blinkerHorizontal M r c) next).Valid :=
    ⟨by show 1 ≤ M; omega, show (1 : Int) ≤ 1 by decide, Int.tmod_one M,
      Board.ofFn_square _, hnext⟩
  have hit := iterate_advance_blinker (GameOfLife.mk M 1 k (blinkerHorizontal M r c) next)
    hM hr0 hr hc0 hc rfl
  obtain ⟨events, h1, h2⟩ := run_displays _ hv
  refine ⟨_, events, h1, (hit _).2, ?_⟩
  rw [h2]
  simp only [Int.toNat_ofNat]
  apply List.map_congr_left
  intro i _
  rw [(hit (i + 1)).2]

theorem blinker_oscillates_witness :
    ∃ final events,
      (GameOfLife.mk 4 1 3 (blinkerHorizontal 4 0 3) (Board.dead 4)).run
        = some (final, events) ∧
      final.currentBoard
        = (if 3 % 2 = 0 then blinkerHorizontal 4 0 3 else blinkerVertical 4 0 3) ∧
      events.filter Event.isDisplay = (List.range 3).map fun i =>
        Event.display
          (if (i + 1) % 2 = 0 then blinkerHorizontal 4 0 3 else blinkerVertical 4 0 3) :=
  blinker_oscillates 4 (by decide) 0 3 (by decide) (by decide)
    (by decide) (by decide) 3 (Board.dead 4) (by decide)

/-- C8: on two `M × M` grids (`M ≥ 1`) that differ only in the cell
`(M - 1, M - 1)`, live in the first and dead in the second, `countNeighbors(0,
0)` is strictly greater on the first, and greater by exactly one when
`M ≥ 3`. -/
theorem countNeighbors_diagonal_wrap (g1 g2 : GameOfLife) (hM : 1 ≤ g1.M) (hM2 : g2.M = g1.M)
    (hsq1 : g1.currentBoard.Square g1.M) (hsq2 : g2.currentBoard.Square g1.M)
    (hlive : g1.currentBoard.read (g1.M - 1) (g1.M - 1) = some true)
    (hdead : g2.currentBoard.read (g1.M - 1) (g1.M - 1) = some false)
    (hsame : ∀ row col, 0 ≤ row → row < g1.M → 0 ≤ col → col < g1.M →
      ¬ (row = g1.M - 1 ∧ col = g1.M - 1) →
      g1.currentBoard.read row col = g2.currentBoard.read row col) :
    ∃ n1 n2, g1.countNeighbors 0 0 = some n1 ∧ g2.countNeighbors 0 0 = some n2 ∧
      n2 < n1 ∧ (3 ≤ g1.M → n1 = n2 + 1) := by
  refine ⟨_, _, countNeighbors_eq g1 hM hsq1 (le_refl 0) (le_refl 0),
    countNeighbors_eq g2 (by rw [hM2]; exact hM) (by rw [hM2]; exact hsq2) (le_refl 0)
      (le_refl 0), ?_⟩
  rw [hM2]
  have key : ∀ x y, 0 ≤ x → x < g1.M → 0 ≤ y → y < g1.M →
      ∃ d : Int, 0 ≤ d ∧ d ≤ 1 ∧ (x = g1.M - 1 ∧ y = g1.M - 1 → d = 1) ∧
        (¬ (x = g1.M - 1 ∧ y = g1.M - 1) → d = 0) ∧
        indicator (g1.currentBoard.isLive x y) = indicator (g2.currentBoard.isLive x y) + d := by
    intro x y a b c d
    by_cases e : x = g1.M - 1 ∧ y = g1.M - 1
    · refine ⟨1, by omega, by omega, fun _ => rfl, fun h => (h e).elim, ?_⟩
      obtain ⟨rfl, rfl⟩ := e
      simp [Board.isLive, hlive, hdead, indicator]
    · refine ⟨0, by omega, by omega, fun h => (e h).elim, fun _ => rfl, ?_⟩
      simp [Board.isLive, hsame x y a b c d e]
  have hm : ((0 : Int) + -1) % g1.M = g1.M - 1 := by
    rw [wrap_pred (le_refl 0) (by omega)]; simp
  have hz : ((0 : Int) + 0) % g1.M = 0 := wrap_zero (le_refl 0) (by omega)
  obtain ⟨p, hp, hp0, hpM, hp3⟩ : ∃ p, ((0 : Int) + 1) % g1.M = p ∧ 0 ≤ p ∧ p < g1.M ∧
      (3 ≤ g1.M → p = 1) := by
    refine ⟨_, wrap_succ (le_refl 0) (by omega), ?_⟩
    split <;> omega
  unfold Board.neighborSum
  rw [hm, hz, hp]
  have hm0 : 0 ≤ g1.M - 1 := by omega
  have hm1 : g1.M - 1 < g1.M := by omega
  have h00 : (0 : Int) ≤ 0 := le_refl 0
  have h0M : (0 : Int) < g1.M := by omega
  obtain ⟨d1, a1, b1, c1, e1, f1⟩ := key (g1.M - 1) (g1.M - 1) hm0 hm1 hm0 hm1
  obtain ⟨d2, a2, b2, c2, e2, f2⟩ := key (g1.M - 1) 0 hm0 hm1 h00 h0M
  obtain ⟨d3, a3, b3, c3, e3, f3⟩ := key (g1.M - 1) p hm0 hm1 hp0 hpM
  obtain ⟨d4, a4, b4, c4, e4, f4⟩ := key 0 (g1.M - 1) h00 h0M hm0 hm1
  obtain ⟨d5, a5, b5, c5, e5, f5⟩ := key 0 p h00 h0M hp0 hpM
  obtain ⟨d6, a6, b6, c6, e6, f6⟩ := key p (g1.M - 1) hp0 hpM hm0 hm1
  obtain ⟨d7, a7, b7, c7, e7, f7⟩ := key p 0 hp0 hpM h00 h0M
  obtain ⟨d8, a8, b8, c8, e8, f8⟩ := key p p hp0 hpM hp0 hpM
  rw [f1, f2, f3, f4, f5, f6, f7, f8]
  have hd1 : d1 = 1 := c1 ⟨rfl, rfl⟩
  constructor
  · omega
  · intro h3
    have hp1 := hp3 h3
    have z2 : d2 = 0 := e2 (by omega)
    have z3 : d3 = 0 := e3 (by omega)
    have z4 : d4 = 0 := e4 (by omega)
    have z5 : d5 = 0 := e5 (by omega)
    have z6 : d6 = 0 := e6 (by omega)
    have z7 : d7 = 0 := e7 (by omega)
    have z8 : d8 = 0 := e8 (by omega)
    omega

theorem countNeighbors_diagonal_wrap_witness :
    ∃ n1 n2, sampleCorner.countNeighbors 0 0 = some n1 ∧
      sampleGame.countNeighbors 0 0 = some n2 ∧ n2 < n1 ∧
      (3 ≤ sampleCorner.M → n1 = n2 + 1) :=
  countNeighbors_diagonal_wrap sampleCorner sampleGame
    (by decide) (by decide) (by decide) (by decide) (by decide) (by decide)
    (by
      intro row col a b c d e
      have hM : sampleCorner.M = 4 := rfl
      rw [hM] at b d e
      have hr : row = 0 ∨ row = 1 ∨ row = 2 ∨ row = 3 := by omega
      have hc : col = 0 ∨ col = 1 ∨ col = 2 ∨ col = 3 := by omega
      rcases hr with rfl | rfl | rfl | rfl <;> rcases hc with rfl | rfl | rfl | rfl <;>
        first | rfl | (exact (e ⟨by decide, by decide⟩).elim))

/-- C9: in a valid configuration, `run` with `MAX = 0` makes no generation
step and returns the object unchanged with no event; `run` with `MAX = k`
is the loop body executed `k` times, and among its events there are exactly `k`
calls of `displayBoard`, each right after a board assignment and showing the
current board that the generation steps so far have produced. -/
theorem run_generation_count (g : GameOfLife) (hv : g.Valid) (k : Nat) (hk : g.MAX = k) :
    ({ g with MAX := 0 } : GameOfLife).run = some ({ g with MAX := 0 }, []) ∧
    ∃ sectionSize final events, cdiv g.M g.N = some sectionSize ∧
      g.run = some (final, events) ∧
      g.generations sectionSize k = some (final, events) ∧
      events.countP Event.isDisplay = k ∧
      ∃ boards : List Board, boards.length = k ∧
        events.filter Event.isSwapOrDisplay
          = boards.flatMap (fun b => [Event.swap, Event.display b]) ∧
        ∀ i, i < k → ∃ gi ei, g.generations sectionSize (i + 1) = some (gi, ei) ∧
          boards[i]? = some gi.currentBoard := by
  have hrun := run_eq g hv
  have hgen := generations_eq g hv
  have hkk : g.MAX.toNat = k := by omega
  rw [hkk] at hrun
  constructor
  · rw [run_eq ({ g with MAX := 0 } : GameOfLife) hv]
    rfl
  · refine ⟨g.M / g.N, _, _, (generation_eq g hv).1, hrun, hgen k, ?_, ?_⟩
    · rw [List.countP_flatMap]
      simp [Function.comp_def, generationEvents_countP]
    · refine ⟨(List.range k).map fun i => (GameOfLife.advance^[i] g).lifeBoard, by simp, ?_, ?_⟩
      · rw [filter_flatMap_eq]
        simp only [generationEvents_filter, List.flatMap_map]
      · intro i hi
        refine ⟨_, _, hgen (i + 1), ?_⟩
        rw [Function.iterate_succ_apply']
        simp [List.getElem?_map, List.getElem?_range hi, GameOfLife.advance]

theorem run_generation_count_witness :
    sampleGame.Valid ∧ sampleGame.MAX = (3 : Nat) ∧
    ({ sampleGame with MAX := 0 } : GameOfLife).run
      = some ({ sampleGame with MAX := 0 }, []) ∧
    ∃ sectionSize final events, cdiv sampleGame.M sampleGame.N = some sectionSize ∧
      sampleGame.run = some (final, events) ∧
      sampleGame.generations sectionSize 3 = some (final, events) ∧
      events.countP Event.isDisplay = 3 ∧
      ∃ boards : List Board, boards.length = 3 ∧
        events.filter Event.isSwapOrDisplay
          = boards.flatMap (fun b => [Event.swap, Event.display b]) ∧
        ∀ i, i < 3 → ∃ gi ei, sampleGame.generations sectionSize (i + 1) = some (gi, ei) ∧
          boards[i]? = some gi.currentBoard :=
  ⟨by decide, by decide, run_generation_count sampleGame (by decide) 3 (by decide)⟩

/-- C10: for `N ≠ 0`, the constructor with `M % N ≠ 0` throws
`std::invalid_argument` with no event before it (no board allocated, no
worker), and with `M % N = 0` it does not throw `std::invalid_argument`. -/
theorem construct_checks_divisibility (M N MAX : Int) (hN : N ≠ 0) :
    (Int.tmod M N ≠ 0 → GameOfLife.construct M N MAX = some ([], .error
      (.invalidArgument "Board size must be divisible by number of sections"))) ∧
    (Int.tmod M N = 0 → ∀ events what,
      GameOfLife.construct M N MAX ≠ some (events, .error (.invalidArgument what))) := by
  constructor
  · intro h
    have hdef : ¬ (N = 0 ∨ (M = -2147483648 ∧ N = -1)) := by
      rintro (h0 | ⟨h1, h2⟩)
      · exact hN h0
      · subst h1 h2
        exact h (by decide)
    simp [GameOfLife.construct, cmod, hdef, h]
  · intro h events what
    by_cases hdef : N = 0 ∨ (M = -2147483648 ∧ N = -1)
    · simp [GameOfLife.construct, cmod, hdef]
    · by_cases hneg : M < 0
      · simp [GameOfLife.construct, cmod, hdef, h, hneg]
      · simp [GameOfLife.construct, cmod, hdef, h, hneg]

theorem construct_checks_divisibility_witness :
    (3 : Int) ≠ 0 ∧ Int.tmod 10 3 ≠ 0 ∧
    GameOfLife.construct 10 3 5 = some ([], .error
      (.invalidArgument "Board size must be divisible by number of sections")) :=
  ⟨by decide, by decide,
    (construct_checks_divisibility 10 3 5 (by decide)).1 (by decide)⟩

/-- C11, evaluated on the code: the constructor rejects only `M % N != 0`.
With `M = 4`, `N = -2` it allocates the boards and returns the object, and
`run` on that object with a 2 × 2 block in the current board creates no worker
and copies the dead next board over it; with `M = 0`, `N = 1` it returns an
object with empty boards; with `N = 0` the remainder `M % N` is undefined; with
`M = -4`, `N = 2` the exception comes from the `std::vector` constructor, not
from the check. -/
theorem construct_accepts_nonpositive :
    GameOfLife.construct 4 (-2) 1 = some ([Event.allocateBoards, Event.initNCurses],
      .ok (GameOfLife.mk 4 (-2) 1 (Board.dead 4) (Board.dead 4))) ∧
    (GameOfLife.mk 4 (-2) 1 (blockBoard 4 1 1) (Board.dead 4)).run
      = some (GameOfLife.mk 4 (-2) 1 (Board.dead 4) (Board.dead 4),
          [Event.swap, Event.display (Board.dead 4), Event.sleep]) ∧
    GameOfLife.construct 0 1 1 = some ([Event.allocateBoards, Event.initNCurses],
      .ok (GameOfLife.mk 0 1 1 [] [])) ∧
    GameOfLife.construct 4 0 1 = none ∧
    GameOfLife.construct (-4) 2 1 = some ([], .error Failure.allocation) :=
  ⟨rfl, by decide, rfl, rfl, rfl⟩

/-- C12: in a valid configuration, for every schedule of `run` and its
workers, whatever the order in which the workers load and store: a `join`
happens only when all `N * N` workers of the generation have been created; the
assignment `currentBoard = nextBoard` happens only when every worker of the
generation has been created and joined and has no cell left and no store
pending; a worker of generation `g + 1` is created, loads and stores only after
the assignment of generation `g`; and while generations remain, a next step is
possible. -/
theorem fork_join_barrier (g : GameOfLife) (hv : g.Valid) (done : List Action) (a : Action)
    (h : (g.runThreads (done ++ [a])).isSome = true) :
    ∃ sectionSize before after, cdiv g.M g.N = some sectionSize ∧
      (g.subregions sectionSize).length = g.N.toNat * g.N.toNat ∧
      g.runThreads done = some before ∧ Threads.step sectionSize before a = some after ∧
      g.runThreads (done ++ [a]) = some after ∧
      (∀ generation k, a = Action.join generation k →
        ∀ j, j < g.N.toNat * g.N.toNat → Action.create generation j ∈ done) ∧
      (∀ generation, a = Action.swap generation →
        ∀ j, j < g.N.toNat * g.N.toNat →
          Action.create generation j ∈ done ∧ Action.join generation j ∈ done ∧
          before.tasks[j]? = some ⟨[], none⟩) ∧
      (∀ generation k,
        a = Action.create (generation + 1) k ∨ a = Action.load (generation + 1) k
          ∨ a = Action.store (generation + 1) k →
        Action.swap generation ∈ done) ∧
      ((after.generation : Int) < g.MAX → ∃ b next, Threads.step sectionSize after b = some next) := by
  rw [runThreads_snoc g hv] at h
  cases hd : g.runThreads done with
  | none => rw [hd] at h; exact Bool.noConfusion h
  | some before =>
    rw [hd] at h
    cases hs : Threads.step (g.M / g.N) before a with
    | none =>
      simp only [Option.bind_eq_bind, Option.some_bind, hs] at h
      exact Bool.noConfusion h
    | some after =>
      have hr := runThreads_reached g hv done before hd
      obtain ⟨hr2, p1, p2, p3⟩ := Threads.step_sound hv hr a after hs
      have hlen := subregions_length g (g.M / g.N)
      refine ⟨g.M / g.N, before, after, (generation_eq g hv).1, hlen, rfl, hs, ?_, ?_, ?_, p3,
        ?_⟩
      · rw [runThreads_snoc g hv, hd]
        exact hs
      · intro generation k he j hj
        exact p1 generation k he j (by rw [hlen]; exact hj)
      · intro generation he j hj
        exact p2 generation he j (by rw [hlen]; exact hj)
      · intro hgen
        exact Threads.progress hv hr2 hgen

theorem fork_join_barrier_witness :
    tinyGame.Valid ∧ (tinyGame.runThreads (tinySchedule ++ [Action.swap 0])).isSome = true ∧
    ∃ sectionSize before after, cdiv tinyGame.M tinyGame.N = some sectionSize ∧
      (tinyGame.subregions sectionSize).length = tinyGame.N.toNat * tinyGame.N.toNat ∧
      tinyGame.runThreads tinySchedule = some before ∧
      Threads.step sectionSize before (Action.swap 0) = some after ∧
      tinyGame.runThreads (tinySchedule ++ [Action.swap 0]) = some after ∧
      (∀ generation k, Action.swap 0 = Action.join generation k →
        ∀ j, j < tinyGame.N.toNat * tinyGame.N.toNat →
          Action.create generation j ∈ tinySchedule) ∧
      (∀ generation, Action.swap 0 = Action.swap generation →
        ∀ j, j < tinyGame.N.toNat * tinyGame.N.toNat →
          Action.create generation j ∈ tinySchedule ∧
          Action.join generation j ∈ tinySchedule ∧
          before.tasks[j]? = some ⟨[], none⟩) ∧
      (∀ generation k,
        Action.swap 0 = Action.create (generation + 1) k ∨
          Action.swap 0 = Action.load (generation + 1) k ∨
          Action.swap 0 = Action.store (generation + 1) k →
        Action.swap generation ∈ tinySchedule) ∧
      ((after.generation : Int) < tinyGame.MAX →
        ∃ b next, Threads.step sectionSize after b = some next) :=
  ⟨by decide, by decide,
    fork_join_barrier tinyGame (by decide) tinySchedule (Action.swap 0) (by decide)⟩

/-- C13: in a valid configuration every subregion computed by `run` satisfies
`0 ≤ startRow < endRow ≤ M` and `0 ≤ startCol < endCol ≤ M`; for every cell of
a subregion the read of `currentBoard`, the write of `nextBoard` and, for `i`,
`j` in `{-1, 0, 1}`, the wrapped indices `(row + i + M) % M` and
`(col + j + M) % M` are defined and lie in `[0, M)`; and each worker and the
whole generation run without an access outside the boards. -/
theorem generation_in_bounds (g : GameOfLife) (hv : g.Valid) :
    ∃ sectionSize, cdiv g.M g.N = some sectionSize ∧
      (∀ s ∈ g.subregions sectionSize,
        (0 ≤ s.startRow ∧ s.startRow < s.endRow ∧ s.endRow ≤ g.M) ∧
        (0 ≤ s.startCol ∧ s.startCol < s.endCol ∧ s.endCol ≤ g.M) ∧
        (∃ after, g.computeSubregion s.startRow s.endRow s.startCol s.endCol = some after) ∧
        ∀ row col, s.Contains row col →
          (0 ≤ row ∧ row < g.M ∧ 0 ≤ col ∧ col < g.M) ∧
          (∃ alive, g.currentBoard.read row col = some alive) ∧
          (∀ value, ∃ next, g.nextBoard.write row col value = some next) ∧
          ∀ i ∈ forRange (-1) 2, ∀ j ∈ forRange (-1) 2,
            ∃ newRow newCol, cmod (row + i + g.M) g.M = some newRow ∧
              cmod (col + j + g.M) g.M = some newCol ∧
              (0 ≤ newRow ∧ newRow < g.M ∧ 0 ≤ newCol ∧ newCol < g.M) ∧
              ∃ cell, g.currentBoard.read newRow newCol = some cell) ∧
      ∃ next events, g.generation sectionSize = some (next, events) := by
  obtain ⟨hg1, hg2⟩ := generation_eq g hv
  obtain ⟨hM, hN, hdiv, hcur, hnext⟩ := hv
  obtain ⟨-, h2, h3⟩ := sectionSize_spec hM hN hdiv
  refine ⟨g.M / g.N, hg1, ?_, _, _, hg2⟩
  intro s hs
  obtain ⟨e1, e2, a, b, c, d⟩ := subregions_inside g h2 h3 hs
  refine ⟨⟨a, by omega, b⟩, ⟨c, by omega, d⟩, ?_, ?_⟩
  · obtain ⟨after, hafter, -⟩ :=
      computeSubregion_updated hM hcur (GameOfLife.Updated.start g hnext) s a b c d
    exact ⟨after, hafter⟩
  · intro row col hin
    have r0 : 0 ≤ row := le_trans a hin.1
    have r1 : row < g.M := lt_of_lt_of_le hin.2.1 b
    have c0 : 0 ≤ col := le_trans c hin.2.2.1
    have c1 : col < g.M := lt_of_lt_of_le hin.2.2.2 d
    refine ⟨⟨r0, r1, c0, c1⟩, ⟨_, Board.read_square hcur r0 r1 c0 c1⟩, ?_, ?_⟩
    · intro value
      obtain ⟨next, hw, -⟩ := Board.write_square hnext r0 r1 c0 c1 value
      exact ⟨next, hw⟩
    · intro i hi j hj
      rw [mem_forRange] at hi hj
      have hM0 : g.M ≠ 0 := by omega
      have hpos : 0 < g.M := by omega
      have n1 : ¬ (g.M = 0 ∨ (row + i + g.M = -2147483648 ∧ g.M = -1)) := by omega
      have n2 : ¬ (g.M = 0 ∨ (col + j + g.M = -2147483648 ∧ g.M = -1)) := by omega
      have t1 : Int.tmod (row + i + g.M) g.M = (row + i + g.M) % g.M :=
        Int.tmod_eq_emod (by omega) (by omega)
      have t2 : Int.tmod (col + j + g.M) g.M = (col + j + g.M) % g.M :=
        Int.tmod_eq_emod (by omega) (by omega)
      have b1 := Int.emod_nonneg (row + i + g.M) hM0
      have b2 := Int.emod_lt_of_pos (row + i + g.M) hpos
      have b3 := Int.emod_nonneg (col + j + g.M) hM0
      have b4 := Int.emod_lt_of_pos (col + j + g.M) hpos
      refine ⟨(row + i + g.M) % g.M, (col + j + g.M) % g.M, ?_, ?_, ⟨b1, b2, b3, b4⟩,
        _, Board.read_square hcur b1 b2 b3 b4⟩
      · simp only [cmod, n1, if_false, t1]
      · simp only [cmod, n2, if_false, t2]

theorem generation_in_bounds_witness :
    sampleGame.Valid ∧
    ∃ sectionSize, cdiv sampleGame.M sampleGame.N = some sectionSize ∧
      (∀ s ∈ sampleGame.subregions sectionSize,
        (0 ≤ s.startRow ∧ s.startRow < s.endRow ∧ s.endRow ≤ sampleGame.M) ∧
        (0 ≤ s.startCol ∧ s.startCol < s.endCol ∧ s.endCol ≤ sampleGame.M) ∧
        (∃ after,
          sampleGame.computeSubregion s.startRow s.endRow s.startCol s.endCol = some after) ∧
        ∀ row col, s.Contains row col →
          (0 ≤ row ∧ row < sampleGame.M ∧ 0 ≤ col ∧ col < sampleGame.M) ∧
          (∃ alive, sampleGame.currentBoard.read row col = some alive) ∧
          (∀ value, ∃ next, sampleGame.nextBoard.write row col value = some next) ∧
          ∀ i ∈ forRange (-1) 2, ∀ j ∈ forRange (-1) 2,
            ∃ newRow newCol, cmod (row + i + sampleGame.M) sampleGame.M = some newRow ∧
              cmod (col + j + sampleGame.M) sampleGame.M = some newCol ∧
              (0 ≤ newRow ∧ newRow < sampleGame.M ∧ 0 ≤ newCol ∧ newCol < sampleGame.M) ∧
              ∃ cell, sampleGame.currentBoard.read newRow newCol = some cell) ∧
      ∃ next events, sampleGame.generation sectionSize = some (next, events) :=
  ⟨by decide, generation_in_bounds sampleGame (by decide)⟩

/-- C15, as stated, fails on the board of side 46341 with every cell live:
`run` with `MAX = 0` returns the object as it is, the number of cells of the
current grid whose value is true is 46341 × 46341 = 2147488281, more than
`INT_MAX`, and `countLiveCells` returns -2147479015, outside `[0, M * M]`. -/
theorem countLiveCells_overflows :
    fullGame.Valid ∧ fullGame.M = 46341 ∧ fullGame.run = some (fullGame, []) ∧
    (List.product (forRange 0 fullGame.M) (forRange 0 fullGame.M)).countP
      (fun p => decide (fullGame.currentBoard.read p.1 p.2 = some true)) = 2147488281 ∧
    fullGame.countLiveCells = -2147479015 := by
  have hsq : fullGame.currentBoard.Square fullGame.M := fullGame_valid.2.2.2.1
  refine ⟨fullGame_valid, rfl, rfl, ?_, ?_⟩
  · rw [← countP_read_eq hsq, ← count_rows_eq hsq]
    exact fullGame_rows
  · rw [countLiveCells_sum, fullGame_rows]
    decide

/-- C15, amended: in a valid configuration with `M ≤ 46340`, so that
`M * M ≤ INT_MAX`, `run` terminates with a current grid of side `M`, and on
every object with a current grid of side `M`, so on the final one,
`countLiveCells` returns the number of cells `(r, c)` with `0 ≤ r, c < M` whose
value in the current grid is true, a number in `[0, M * M]`.  The function
`countLiveCells` only reads the object: it returns the count and nothing
else. -/
theorem countLiveCells_final (g : GameOfLife) (hv : g.Valid) (hM : g.M ≤ 46340) :
    (∃ final events, g.run = some (final, events) ∧ final.M = g.M ∧
      final.currentBoard.Square g.M) ∧
    ∀ final : GameOfLife, final.M = g.M → final.currentBoard.Square g.M →
      final.countLiveCells = ((List.product (forRange 0 g.M) (forRange 0 g.M)).countP
        fun p => decide (final.currentBoard.read p.1 p.2 = some true) : Nat) ∧
      0 ≤ final.countLiveCells ∧ final.countLiveCells ≤ g.M * g.M := by
  obtain ⟨hvk, hMk, -, -⟩ := iterate_advance_valid g hv g.MAX.toNat
  have hM0 : 0 ≤ g.M := by have := hv.1; omega
  constructor
  · refine ⟨_, _, run_eq g hv, hMk, ?_⟩
    rw [← hMk]
    exact hvk.2.2.2.1
  · intro final hfM hsq
    have hcount := countLiveCells_eq final (by rw [hfM]; exact hsq)
    rw [hfM] at hcount
    have hlen := product_length hM0
    have hle : (((List.product (forRange 0 g.M) (forRange 0 g.M)).countP
        fun p => decide (final.currentBoard.read p.1 p.2 = some true) : Nat) : Int)
        ≤ g.M * g.M := by
      rw [← hlen]
      exact Int.ofNat_le.2 (List.countP_le_length _)
    have hsqr : g.M * g.M ≤ 46340 * 46340 := Int.mul_le_mul hM hM hM0 (by decide)
    have hnn : (0 : Int) ≤ ((List.product (forRange 0 g.M) (forRange 0 g.M)).countP
        fun p => decide (final.currentBoard.read p.1 p.2 = some true) : Nat) :=
      Int.ofNat_nonneg _
    rw [wrapInt_of_int (by omega) (by omega)] at hcount
    rw [hcount]
    exact ⟨rfl, hnn, hle⟩

theorem countLiveCells_final_witness :
    sampleGame.Valid ∧ sampleGame.M ≤ 46340 ∧
    (∃ final events, sampleGame.run = some (final, events) ∧ final.M = sampleGame.M ∧
      final.currentBoard.Square sampleGame.M) ∧
    ∀ final : GameOfLife, final.M = sampleGame.M → final.currentBoard.Square sampleGame.M →
      final.countLiveCells
        = ((List.product (forRange 0 sampleGame.M) (forRange 0 sampleGame.M)).countP
          fun p => decide (final.currentBoard.read p.1 p.2 = some true) : Nat) ∧
      0 ≤ final.countLiveCells ∧ final.countLiveCells ≤ sampleGame.M * sampleGame.M :=
  ⟨by decide, by decide, countLiveCells_final sampleGame (by decide) (by decide)⟩

/-- C16: for `M ≥ 3` and a cell in range, the eight index pairs
`((row + i + M) % M, (col + j + M) % M)` read by `countNeighbors` are pairwise
distinct and none is `(row, col)`, and the value returned is the number of
elements of the set of live cells among them. -/
theorem countNeighbors_distinct_positions (g : GameOfLife) (hM : 3 ≤ g.M)
    (hsq : g.currentBoard.Square g.M) (row col : Int)
    (hr0 : 0 ≤ row) (hr : row < g.M) (hc0 : 0 ≤ col) (hc : col < g.M) :
    (g.neighborPositions row col).length = 8 ∧
    (g.neighborPositions row col).Nodup ∧
    (row, col) ∉ g.neighborPositions row col ∧
    g.countNeighbors row col = some
      (((g.neighborPositions row col).toFinset.filter
        fun p => g.currentBoard.read p.1 p.2 = some true).card : Int) := by
  have hM1 : 1 ≤ g.M := by omega
  obtain ⟨rm, rp, e1, e2, e3, a1, a2, a3, a4, a5, a6, a7⟩ := wrapped_offsets hM hr0 hr
  obtain ⟨cm, cp, f1, f2, f3, b1, b2, b3, b4, b5, b6, b7⟩ := wrapped_offsets hM hc0 hc
  have hpos : g.neighborPositions row col
      = [(rm, cm), (rm, col), (rm, cp), (row, cm), (row, cp), (rp, cm), (rp, col),
        (rp, cp)] := by
    rw [neighborPositions_eq g hM1 hr0 hc0]
    simp only [neighborOffsets, List.map_cons, List.map_nil, e1, e2, e3, f1, f2, f3]
  have hnd : (g.neighborPositions row col).Nodup := by
    rw [hpos]; exact offsets_nodup a5 a6 a7 b5 b6 b7
  refine ⟨by rw [hpos]; rfl, hnd, ?_, ?_⟩
  · rw [hpos]
    simp only [List.mem_cons, List.mem_singleton, Prod.mk.injEq, List.not_mem_nil, or_false,
      not_or, not_and]
    refine ⟨?_, ?_, ?_, ?_, ?_, ?_, ?_, ?_⟩ <;> intro h <;> omega
  · rw [countNeighbors_eq_positions g hM1 hsq hr0 hc0]
    have hfilter : ((g.neighborPositions row col).toFinset.filter
        fun p => g.currentBoard.read p.1 p.2 = some true)
        = ((g.neighborPositions row col).filter
          fun p => g.currentBoard.isLive p.1 p.2).toFinset := by
      ext p
      simp only [Finset.mem_filter, List.mem_toFinset, List.mem_filter]
      constructor
      · rintro ⟨h1, h2⟩
        exact ⟨h1, by simp [Board.isLive, h2]⟩
      · rintro ⟨h1, h2⟩
        refine ⟨h1, ?_⟩
        rw [hpos] at h1
        have hp : 0 ≤ p.1 ∧ p.1 < g.M ∧ 0 ≤ p.2 ∧ p.2 < g.M := by
          simp only [List.mem_cons, List.mem_singleton, List.not_mem_nil, or_false] at h1
          rcases h1 with h | h | h | h | h | h | h | h <;> subst h <;>
            exact ⟨by assumption, by assumption, by assumption, by assumption⟩
        rw [Board.read_square hsq hp.1 hp.2.1 hp.2.2.1 hp.2.2.2, h2]
    rw [hfilter, List.toFinset_card_of_nodup (List.Nodup.filter _ hnd)]

theorem countNeighbors_distinct_positions_witness :
    (sampleCorner.neighborPositions 0 0).length = 8 ∧
    (sampleCorner.neighborPositions 0 0).Nodup ∧
    (0, 0) ∉ sampleCorner.neighborPositions 0 0 ∧
    sampleCorner.countNeighbors 0 0 = some
      (((sampleCorner.neighborPositions 0 0).toFinset.filter
        fun p => sampleCorner.currentBoard.read p.1 p.2 = some true).card : Int) :=
  countNeighbors_distinct_positions sampleCorner (by decide) (by decide) 0 0
    (by decide) (by decide) (by decide) (by decide)

/-- C17: on the 1 × 1 board whose cell is live all eight reads of
`countNeighbors(0, 0)` are of the cell itself, the count is 8 and the cell is
dead after one generation; on the 2 × 2 board whose only live cell is `(1, 1)`
four of the eight reads of `countNeighbors(0, 0)` are of `(1, 1)` and the count
is 4. -/
theorem countNeighbors_degenerate_boards :
    singleCellGame.Valid ∧
    singleCellGame.neighborPositions 0 0 = List.replicate 8 (0, 0) ∧
    singleCellGame.countNeighbors 0 0 = some 8 ∧
    singleCellGame.run.map (fun p => p.1.currentBoard) = some [[false]] ∧
    cornerCellGame.Valid ∧
    cornerCellGame.neighborPositions 0 0
      = [(1, 1), (1, 0), (1, 1), (0, 1), (0, 1), (1, 1), (1, 0), (1, 1)] ∧
    cornerCellGame.countNeighbors 0 0 = some 4 := by
  decide

/-- C18, at the failing input: with `N = 2` and the schedule `raceSchedule`,
one generation on the 4 × 4 board holding the 2 × 2 block at `(1, 1)` gives a
board on which the cell `(1, 2)` is dead, and one generation on that board
moved by `(1, 1)`, the block at `(2, 2)`, gives the block at `(2, 2)`, which is
not the first result moved by `(1, 1)`. -/
theorem generation_breaks_shift :
    raceGame.Valid ∧
    ({ raceGame with currentBoard := raceGame.currentBoard.shift 4 1 1 } : GameOfLife).Valid ∧
    raceGame.currentBoard.shift 4 1 1 = blockBoard 4 2 2 ∧
    raceGame.boardAfter raceSchedule 1
      = some [[false, false, false, false], [false, true, false, false],
          [false, true, true, false], [false, false, false, false]] ∧
    ({ raceGame with currentBoard := raceGame.currentBoard.shift 4 1 1 } :
        GameOfLife).boardAfter raceSchedule 1
      = some (blockBoard 4 2 2) ∧
    (raceGame.boardAfter raceSchedule 1).map (fun board => board.shift 4 1 1)
      = some [[false, false, false, false], [false, false, false, false],
          [false, false, true, false], [false, false, true, true]] ∧
    ({ raceGame with currentBoard := raceGame.currentBoard.shift 4 1 1 } :
        GameOfLife).boardAfter raceSchedule 1
      ≠ (raceGame.boardAfter raceSchedule 1).map (fun board => board.shift 4 1 1) := by
  decide

end GOL
